import Mathlib

/-!
# Binary search tree (`BST.h`)

A shallow embedding of the class template `BST<T>` and a verification of its
documented behaviour.

## Representation

The source links heap nodes with `left`, `right` and `parent` pointers.  The
embedding keeps the same information in two pieces:

* `BST.Tree α` is a (nullable) `Node*` together with everything reachable from
  it through `left` and `right`: `nil` is `nullptr`.
* `BST.Loc α` is a non-null `Node*` together with the chain of `parent` links
  above it: every `BST.Frame` of the chain records on which side of its parent
  the node hangs, the parent's value and the parent's other child.  A nullable
  `Node*` whose parents matter is an `Option (BST.Loc α)`.

The stored type `T` is any type with a linear order, which is what the
comparisons `<`, `>` and `!=` of the source are taken to be.
-/

/-- A `Node*` with the nodes below it; `nil` is the null pointer. -/
inductive BST.Tree (α : Type) where
  | nil : BST.Tree α
  | node (left : BST.Tree α) (value : α) (right : BST.Tree α) : BST.Tree α
deriving DecidableEq, Repr

/-- The class `BST<T>`: the data members `m_root` and `m_size`.  The counter is
a `size_t` in the source; it counts live heap nodes, which cannot number `2^64`,
so it is kept as an unbounded natural number. -/
structure BST (α : Type) where
  m_root : BST.Tree α
  m_size : Nat
deriving DecidableEq, Repr

namespace BST

variable {α : Type}

/-- The side of its parent on which a node hangs. -/
inductive Side where
  | left : Side
  | right : Side
deriving DecidableEq, Repr

/-- One `parent` link seen from the child: `side` tells whether the child is
`parent->left` or `parent->right`, `value` is `parent->value` and `other` is
the parent's other child. -/
structure Frame (α : Type) where
  side : Side
  value : α
  other : Tree α
deriving DecidableEq, Repr

/-- A non-null `Node*`: its `left`, `value`, `right` members and the chain `up`
of its `parent` links, nearest parent first (the root has `up = []`). -/
structure Loc (α : Type) where
  up : List (Frame α)
  left : Tree α
  value : α
  right : Tree α
deriving DecidableEq, Repr

/-- The subtree hanging from a non-null pointer. -/
def Loc.tree (n : Loc α) : Tree α := Tree.node n.left n.value n.right

/-- A pointer to the top of a tree (such as `m_root`): it has no parent. -/
def rootLoc : Tree α → Option (Loc α)
  | Tree.nil => none
  | Tree.node l x r => some ⟨[], l, x, r⟩

/-- The pointer `node->left`. -/
def Loc.leftChild (n : Loc α) : Option (Loc α) :=
  match n.left with
  | Tree.nil => none
  | Tree.node l x r => some ⟨⟨Side.left, n.value, n.right⟩ :: n.up, l, x, r⟩

/-- The pointer `node->right`. -/
def Loc.rightChild (n : Loc α) : Option (Loc α) :=
  match n.right with
  | Tree.nil => none
  | Tree.node l x r => some ⟨⟨Side.right, n.value, n.left⟩ :: n.up, l, x, r⟩

/-- The whole tree seen from the top of the chain `up` once the subtree `t`
hangs at the bottom of it. -/
def plug : List (Frame α) → Tree α → Tree α
  | [], t => t
  | ⟨Side.left, pv, sib⟩ :: up, t => plug up (Tree.node t pv sib)
  | ⟨Side.right, pv, sib⟩ :: up, t => plug up (Tree.node sib pv t)

/-- The default constructor `BST()`. -/
def empty_tree : BST α := ⟨Tree.nil, 0⟩

/-- The member `size()`. -/
def size (t : BST α) : Nat := t.m_size

/-- The member `empty()`, that is `!m_size`. -/
def empty (t : BST α) : Bool := t.m_size == 0

section Ordered

variable [LinearOrder α]

/-- The `while (current)` loop of `insert`: `current` is the subtree still to
walk, `up` its chain of parents, `parent` the last node left behind.  The result
is the value of `parent` when the loop ends. -/
def insertLoop (value : α) :
    List (Frame α) → Tree α → Option (Loc α) → Option (Loc α)
  | _, Tree.nil, parent => parent
  | up, Tree.node l x r, _ =>
    if x > value then
      insertLoop value (⟨Side.left, x, r⟩ :: up) l (some ⟨up, l, x, r⟩)
    else
      insertLoop value (⟨Side.right, x, l⟩ :: up) r (some ⟨up, l, x, r⟩)

/-- The member `insert`.  With `m_size == 0` the new node becomes the root.
Otherwise the loop finds `parent` and the new node is stored in `parent->left`
or `parent->right`.  A null `parent` (null root with non-zero size) would be
dereferenced by the source; that state is never reached (`run_size`), and the
embedding leaves the tree as it is there. -/
def insert (t : BST α) (value : α) : BST α :=
  if t.empty then
    ⟨Tree.node Tree.nil value Tree.nil, t.m_size + 1⟩
  else
    match insertLoop value [] t.m_root none with
    | none => t
    | some parent =>
      if value < parent.value then
        ⟨plug parent.up
            (Tree.node (Tree.node Tree.nil value Tree.nil) parent.value parent.right),
          t.m_size + 1⟩
      else
        ⟨plug parent.up
            (Tree.node parent.left parent.value (Tree.node Tree.nil value Tree.nil)),
          t.m_size + 1⟩

/-- The static helper `getNode(value, node)`; `up` is the parent chain of
`node`. -/
def getNode (value : α) : List (Frame α) → Tree α → Option (Loc α)
  | _, Tree.nil => none
  | up, Tree.node l x r =>
    if x ≠ value then
      if value > x then getNode value (⟨Side.right, x, l⟩ :: up) r
      else getNode value (⟨Side.left, x, r⟩ :: up) l
    else some ⟨up, l, x, r⟩

end Ordered

/-- The loop `while (node->left) node = node->left` of `getMin`, at the node
with members `l`, `x`, `r` and parent chain `up`. -/
def getMinLoop : List (Frame α) → Tree α → α → Tree α → Loc α
  | up, Tree.nil, x, r => ⟨up, Tree.nil, x, r⟩
  | up, Tree.node ll lx lr, x, r => getMinLoop (⟨Side.left, x, r⟩ :: up) ll lx lr

/-- The static helper `getMin`. -/
def getMin : Option (Loc α) → Option (Loc α)
  | none => none
  | some n => some (getMinLoop n.up n.left n.value n.right)

/-- The loop `while (node->right) node = node->right` of `getMax`. -/
def getMaxLoop : List (Frame α) → Tree α → α → Tree α → Loc α
  | up, l, x, Tree.nil => ⟨up, l, x, Tree.nil⟩
  | up, l, x, Tree.node rl rx rr => getMaxLoop (⟨Side.right, x, l⟩ :: up) rl rx rr

/-- The static helper `getMax`. -/
def getMax : Option (Loc α) → Option (Loc α)
  | none => none
  | some n => some (getMaxLoop n.up n.left n.value n.right)

/-- The tail of `getSuccessor`: `while (node->parent && node == node->parent->right)
node = node->parent; return node->parent;` for the node with subtree `t` and
parent chain `up`. -/
def climbWhileRight : List (Frame α) → Tree α → Option (Loc α)
  | [], _ => none
  | ⟨Side.right, pv, sib⟩ :: up, t => climbWhileRight up (Tree.node sib pv t)
  | ⟨Side.left, pv, sib⟩ :: up, t => some ⟨up, t, pv, sib⟩

/-- The tail of `getPedecessor`: `while (node->parent && node == node->parent->left)
node = node->parent; return node->parent;`. -/
def climbWhileLeft : List (Frame α) → Tree α → Option (Loc α)
  | [], _ => none
  | ⟨Side.left, pv, sib⟩ :: up, t => climbWhileLeft up (Tree.node t pv sib)
  | ⟨Side.right, pv, sib⟩ :: up, t => some ⟨up, sib, pv, t⟩

/-- The static helper `getSuccessor`. -/
def getSuccessor : Option (Loc α) → Option (Loc α)
  | none => none
  | some node =>
    match node.rightChild with
    | some c => getMin (some c)
    | none => climbWhileRight node.up node.tree

/-- The static helper `getPedecessor`. -/
def getPedecessor : Option (Loc α) → Option (Loc α)
  | none => none
  | some node =>
    match node.leftChild with
    | some c => getMax (some c)
    | none => climbWhileLeft node.up node.tree

/-- The link rewriting of `transplant(dest, node)` for a non-null `dest`: the
tree above `dest` after `node` has taken the place of `dest`.  Without a parent
the result is `node` itself (the new `m_root`); otherwise `node` is stored in
the parent's `left` or `right`, whichever held `dest`. -/
def transplantTree (dest : Loc α) (node : Tree α) : Tree α :=
  match dest.up with
  | [] => node
  | ⟨Side.left, pv, sib⟩ :: up => plug up (Tree.node node pv sib)
  | ⟨Side.right, pv, sib⟩ :: up => plug up (Tree.node sib pv node)

/-- The member `transplant(dest, node)`, for a `dest` located under `m_root`. -/
def transplant (t : BST α) (dest : Option (Loc α)) (node : Tree α) : BST α :=
  match dest with
  | none => t
  | some d => ⟨transplantTree d node, t.m_size⟩

/-- The member `removeNode(node)`; `--m_size` is only reached with a node of the
tree in hand, hence with a positive counter (`run_size`).  In the case with two children `successor`
is located relative to `node->right`, so that `successor != node->right` reads
`!successor.up.isEmpty`; the first `transplant` then works inside the right subtree
and its result is what `node->right` points to when it is stored in
`successor->right`. -/
def removeNode (t : BST α) : Option (Loc α) → BST α
  | none => t
  | some node =>
    match node.left, node.right with
    | Tree.nil, r =>
      let t1 := transplant t (some node) r
      ⟨t1.m_root, t1.m_size - 1⟩
    | Tree.node ll lx lr, Tree.nil =>
      let t1 := transplant t (some node) (Tree.node ll lx lr)
      ⟨t1.m_root, t1.m_size - 1⟩
    | Tree.node ll lx lr, Tree.node rl rx rr =>
      let successor := getMinLoop [] rl rx rr
      let succRight :=
        if !successor.up.isEmpty then transplantTree successor successor.right
        else successor.right
      let t1 := transplant t (some node)
        (Tree.node (Tree.node ll lx lr) successor.value succRight)
      ⟨t1.m_root, t1.m_size - 1⟩

/-- The static helper `doInorder`: the visitor `f` threads a state of type `σ`. -/
def doInorder {σ : Type} (f : σ → α → σ) : Tree α → σ → σ
  | Tree.nil, s => s
  | Tree.node l x r, s => doInorder f r (f (doInorder f l s) x)

/-- The static helper `doPreorder`. -/
def doPreorder {σ : Type} (f : σ → α → σ) : Tree α → σ → σ
  | Tree.nil, s => s
  | Tree.node l x r, s => doPreorder f r (doPreorder f l (f s x))

/-- The static helper `doPostorder`. -/
def doPostorder {σ : Type} (f : σ → α → σ) : Tree α → σ → σ
  | Tree.nil, s => s
  | Tree.node l x r, s => f (doPostorder f r (doPostorder f l s)) x

/-- The guarded `queue.push(p)` of `doLevelorder`: null pointers are not pushed.
A queued node is kept as its members `(left, value, right)`. -/
def pushNode (queue : List (Tree α × α × Tree α)) : Tree α → List (Tree α × α × Tree α)
  | Tree.nil => queue
  | Tree.node l x r => queue ++ [(l, x, r)]

/-- The loop `while (!queue.empty())` of `doLevelorder`, run for at most `fuel`
rounds. -/
def doLevelorderLoop {σ : Type} (f : σ → α → σ) :
    Nat → List (Tree α × α × Tree α) → σ → σ
  | 0, _, s => s
  | _ + 1, [], s => s
  | fuel + 1, (l, x, r) :: queue, s =>
    doLevelorderLoop f fuel (pushNode (pushNode queue l) r) (f s x)

/-- The number of nodes below a pointer. -/
def Tree.count : Tree α → Nat
  | Tree.nil => 0
  | Tree.node l _ r => l.count + 1 + r.count

/-- The static helper `doLevelorder`; every round of the loop pops one node, so
one round per node of the tree is allowed. -/
def doLevelorder {σ : Type} (f : σ → α → σ) (node : Tree α) (s : σ) : σ :=
  doLevelorderLoop f node.count (pushNode [] node) s

/-- The member `inorderTraverse`. -/
def inorderTraverse {σ : Type} (t : BST α) (f : σ → α → σ) (s : σ) : σ :=
  doInorder f t.m_root s

/-- The member `preorderTraverse`. -/
def preorderTraverse {σ : Type} (t : BST α) (f : σ → α → σ) (s : σ) : σ :=
  doPreorder f t.m_root s

/-- The member `postorderTraverse`. -/
def postorderTraverse {σ : Type} (t : BST α) (f : σ → α → σ) (s : σ) : σ :=
  doPostorder f t.m_root s

/-- The member `levelorderTraverse`. -/
def levelorderTraverse {σ : Type} (t : BST α) (f : σ → α → σ) (s : σ) : σ :=
  doLevelorder f t.m_root s

/-- The visitor that records the values it is called with, in call order. -/
def record (acc : List α) (v : α) : List α := acc ++ [v]

/-- The sequence of values an in-order traversal hands to its visitor. -/
def inorder (t : BST α) : List α := t.inorderTraverse record []

/-- The sequence of values a pre-order traversal hands to its visitor. -/
def preorder (t : BST α) : List α := t.preorderTraverse record []

/-- The sequence of values a post-order traversal hands to its visitor. -/
def postorder (t : BST α) : List α := t.postorderTraverse record []

/-- The sequence of values a level-order traversal hands to its visitor. -/
def levelorder (t : BST α) : List α := t.levelorderTraverse record []

/-- The ways a call can fail: the `std::logic_error` thrown on an empty tree,
and the dereference of a null pointer. -/
inductive Error where
  | logic_error : Error
  | null_dereference : Error
deriving DecidableEq, Repr

deriving instance DecidableEq for Except

/-- The member `max()`. -/
def max (t : BST α) : Except Error α :=
  if t.empty then Except.error Error.logic_error
  else
    match getMax (rootLoc t.m_root) with
    | some n => Except.ok n.value
    | none => Except.error Error.null_dereference

/-- The member `min()`. -/
def min (t : BST α) : Except Error α :=
  if t.empty then Except.error Error.logic_error
  else
    match getMin (rootLoc t.m_root) with
    | some n => Except.ok n.value
    | none => Except.error Error.null_dereference

/-- The static helper `getHeightHelper`: the number of nodes on the longest
downward path.  It is a `size_t` in the source; it is bounded by the number of
nodes and kept as a natural number. -/
def getHeightHelper : Tree α → Nat
  | Tree.nil => 0
  | Tree.node l _ r => 1 + Nat.max (getHeightHelper l) (getHeightHelper r)

/-- The member `height()`.  The subtraction is reached with `m_size != 0`, hence
in a reachable tree with a non-null root and a helper result of at least one. -/
def height (t : BST α) : Nat :=
  if !t.empty then getHeightHelper t.m_root - 1 else 0

/-- The member `clear()`: `doClear` frees every node, which leaves no trace in
the embedding, then the root is reset to null and the counter to zero. -/
def clear (_t : BST α) : BST α := ⟨Tree.nil, 0⟩

/-- The member `swap(other)`: the two `std::swap` calls.  The result is the pair
of `*this` and `other` after the call. -/
def swap (t other : BST α) : BST α × BST α :=
  (⟨other.m_root, other.m_size⟩, ⟨t.m_root, t.m_size⟩)

/-- The move constructor `BST(BST&& other)`: the new object starts as `BST()`
and is swapped with `other`.  The result is the pair of the new object and of
`other` after the call. -/
def moveConstruct (other : BST α) : BST α × BST α :=
  swap empty_tree other

/-- The move assignment `operator=(BST&& rhs)` for an `rhs` that is another
object than `*this` (for `&rhs == this` the source returns at once): swap, then
`rhs.clear()`.  The result is the pair of `*this` and `rhs` after the call. -/
def moveAssign (t rhs : BST α) : BST α × BST α :=
  ((swap t rhs).1, clear (swap t rhs).2)

section OrderedOps

variable [LinearOrder α]

/-- The member `remove`. -/
def remove (t : BST α) (value : α) : BST α :=
  removeNode t (getNode value [] t.m_root)

/-- The member `search`: the pointer returned by `getNode` converted to `bool`. -/
def search (t : BST α) (value : α) : Bool :=
  (getNode value [] t.m_root).isSome

/-- The member `pedecessorOf`. -/
def pedecessorOf (t : BST α) (value : α) : Except Error α :=
  if t.empty then Except.error Error.logic_error
  else
    match getPedecessor (getNode value [] t.m_root) with
    | some res => Except.ok res.value
    | none => Except.ok value

/-- The member `successorOf`. -/
def successorOf (t : BST α) (value : α) : Except Error α :=
  if t.empty then Except.error Error.logic_error
  else
    match getSuccessor (getNode value [] t.m_root) with
    | some res => Except.ok res.value
    | none => Except.ok value

/-- The constructor from an initializer list: every element is inserted in
turn into an empty tree. -/
def ofList (list : List α) : BST α := list.foldl insert empty_tree

/-- A call of one of the two mutating members. -/
inductive Op (α : Type) where
  | insert (value : α) : Op α
  | remove (value : α) : Op α
deriving DecidableEq, Repr

/-- The effect of one call. -/
def step (t : BST α) : Op α → BST α
  | Op.insert v => t.insert v
  | Op.remove v => t.remove v

/-- The tree reached from the empty tree by a sequence of calls. -/
def run (ops : List (Op α)) : BST α := ops.foldl step empty_tree

/-- The copy constructor `BST(const BST& other)`: the new object starts as
`BST()` and the in-order traversal of `other` runs with a visitor that inserts
each visited value into it. -/
def copy (other : BST α) : BST α :=
  other.inorderTraverse (fun this value => this.insert value) empty_tree

end OrderedOps

end BST


/-! ## Notions used to state the properties -/

namespace BST

variable {α : Type}

/-- The values below a pointer, left subtree first, then the node, then the
right subtree. -/
def Tree.toList : Tree α → List α
  | Tree.nil => []
  | Tree.node l x r => l.toList ++ x :: r.toList

/-- The values that come before the subtree at the bottom of a parent chain, in
left-to-right order of the whole tree. -/
def before : List (Frame α) → List α
  | [] => []
  | ⟨Side.left, _, _⟩ :: up => before up
  | ⟨Side.right, pv, sib⟩ :: up => before up ++ (sib.toList ++ [pv])

/-- The values that come after the subtree at the bottom of a parent chain. -/
def after : List (Frame α) → List α
  | [] => []
  | ⟨Side.left, pv, sib⟩ :: up => (pv :: sib.toList) ++ after up
  | ⟨Side.right, _, _⟩ :: up => after up

/-- Whether a pointer is null. -/
def Tree.isNil : Tree α → Bool
  | Tree.nil => true
  | Tree.node _ _ _ => false

/-- The root-to-leaf paths below a pointer, each given by the sides taken from
one node to the next; the length of a path is its number of edges. -/
def Tree.rootToLeaf : Tree α → List (List Side)
  | Tree.nil => []
  | Tree.node l _ r =>
    if l.isNil && r.isNil then [[]]
    else l.rootToLeaf.map (List.cons Side.left) ++ r.rootToLeaf.map (List.cons Side.right)

/-- The values of the nodes at a given depth below a pointer, from left to
right; the node pointed to has depth zero. -/
def Tree.level : Tree α → Nat → List α
  | Tree.nil, _ => []
  | Tree.node _ x _, 0 => [x]
  | Tree.node l _ r, d + 1 => l.level d ++ r.level d

/-- The values below a pointer in breadth-first order: depth after depth, and
from left to right within a depth. -/
def Tree.byDepth (t : Tree α) : List α :=
  (List.range (getHeightHelper t)).flatMap t.level

/-- The value of the leftmost node below a pointer. -/
def Tree.leftmost : Tree α → Option α
  | Tree.nil => none
  | Tree.node Tree.nil x _ => some x
  | Tree.node (Tree.node ll lx lr) _ _ => (Tree.node ll lx lr).leftmost

/-- The tree in which the leftmost node has been replaced by its own right
subtree. -/
def Tree.dropLeftmost : Tree α → Tree α
  | Tree.nil => Tree.nil
  | Tree.node Tree.nil _ r => r
  | Tree.node (Tree.node ll lx lr) x r =>
    Tree.node (Tree.node ll lx lr).dropLeftmost x r

/-- A right spine: no node below the pointer has a left child. -/
def Tree.NoLeftChild : Tree α → Prop
  | Tree.nil => True
  | Tree.node l _ r => l = Tree.nil ∧ r.NoLeftChild

/-- The right spine holding the given values from top to bottom. -/
def spine : List α → Tree α
  | [] => Tree.nil
  | x :: xs => Tree.node Tree.nil x (spine xs)

/-- The nodes a queue of `doLevelorder` would receive from the nodes of
`queue`: for each of them its non-null children, left before right. -/
def childrenOf : List (Tree α × α × Tree α) → List (Tree α × α × Tree α)
  | [] => []
  | (l, _, r) :: queue => pushNode (pushNode [] l) r ++ childrenOf queue

/-- The number of nodes held by a queue, the queued nodes and all below them. -/
def queueCount : List (Tree α × α × Tree α) → Nat
  | [] => 0
  | (l, _, r) :: queue => l.count + 1 + r.count + queueCount queue

/-- The values at a given depth below the nodes of a queue, queue order first. -/
def queueLevel (queue : List (Tree α × α × Tree α)) (d : Nat) : List α :=
  queue.flatMap (fun n => (Tree.node n.1 n.2.1 n.2.2).level d)

section OrderedSpec

variable [LinearOrder α]

/-- The BST ordering: below every node, the values on the left are strictly
smaller than the node's value and the values on the right are greater or
equal. -/
def Tree.Ordered : Tree α → Prop
  | Tree.nil => True
  | Tree.node l x r =>
    l.Ordered ∧ r.Ordered ∧ (∀ y ∈ l.toList, y < x) ∧ (∀ y ∈ r.toList, x ≤ y)

/-- Insertion by recursion on the tree: the new node replaces the null link at
which the walk of `insert` ends. -/
def Tree.insertRec (value : α) : Tree α → Tree α
  | Tree.nil => Tree.node Tree.nil value Tree.nil
  | Tree.node l x r =>
    if x > value then Tree.node (l.insertRec value) x r
    else Tree.node l x (r.insertRec value)

/-- The consistency of the two data members with the ordering: `m_size` counts
the nodes under `m_root`, and the tree under `m_root` is ordered. -/
def Valid (t : BST α) : Prop := t.m_size = t.m_root.count ∧ t.m_root.Ordered

/-- The number of `insert` calls in a sequence of calls. -/
def insertCalls : List (Op α) → Nat
  | [] => 0
  | Op.insert _ :: ops => insertCalls ops + 1
  | Op.remove _ :: ops => insertCalls ops

/-- The number of `remove` calls, in a sequence of calls made from the tree `t`
on, whose value is stored in the tree at the time of the call. -/
def matchedRemoves : BST α → List (Op α) → Nat
  | _, [] => 0
  | t, Op.insert v :: ops => matchedRemoves (t.insert v) ops
  | t, Op.remove v :: ops =>
    (if v ∈ t.inorder then 1 else 0) + matchedRemoves (t.remove v) ops

end OrderedSpec

/-! ## Traversals -/

theorem doInorder_eq_foldl {σ : Type} (f : σ → α → σ) (t : Tree α) (s : σ) :
    doInorder f t s = t.toList.foldl f s := by
  induction t generalizing s with
  | nil => rfl
  | node l x r ihl ihr => simp [doInorder, Tree.toList, ihl, ihr]

theorem foldl_record (xs acc : List α) : xs.foldl record acc = acc ++ xs := by
  induction xs generalizing acc with
  | nil => simp
  | cons x xs ih => simp [ih, record]

theorem inorder_eq_toList (t : BST α) : t.inorder = t.m_root.toList := by
  simp [inorder, inorderTraverse, doInorder_eq_foldl, foldl_record]

theorem length_toList (t : Tree α) : t.toList.length = t.count := by
  induction t with
  | nil => rfl
  | node l x r ihl ihr => simp [Tree.toList, Tree.count, ihl, ihr]; omega

theorem toList_eq_nil {t : Tree α} : t.toList = [] ↔ t = Tree.nil := by
  cases t <;> simp [Tree.toList]

theorem count_eq_zero {t : Tree α} : t.count = 0 ↔ t = Tree.nil := by
  cases t <;> simp [Tree.count]

/-! ## Parent chains -/

theorem toList_plug (up : List (Frame α)) (t : Tree α) :
    (plug up t).toList = before up ++ (t.toList ++ after up) := by
  induction up generalizing t with
  | nil => simp [plug, before, after]
  | cons fr up ih =>
    obtain ⟨sd, pv, sib⟩ := fr
    cases sd <;> simp [plug, before, after, ih, Tree.toList]

theorem transplantTree_eq (d : Loc α) (node : Tree α) :
    transplantTree d node = plug d.up node := by
  unfold transplantTree
  split <;> rename_i h <;> rw [h] <;> rfl

theorem succRight_eq (s : Loc α) :
    (if !s.up.isEmpty then transplantTree s s.right else s.right) = plug s.up s.right := by
  rw [transplantTree_eq]
  cases h : s.up <;> simp [plug]

theorem getMinLoop_spec (up : List (Frame α)) (l : Tree α) (x : α) (r : Tree α) :
    (getMinLoop up l x r).left = Tree.nil ∧
      plug (getMinLoop up l x r).up (getMinLoop up l x r).tree = plug up (Tree.node l x r) ∧
      before (getMinLoop up l x r).up = before up := by
  induction l generalizing up x r with
  | nil => simp [getMinLoop, Loc.tree]
  | node ll lx lr ihl _ =>
    have h := ihl (⟨Side.left, x, r⟩ :: up) lx lr
    simpa [getMinLoop, plug, before] using h

theorem getMaxLoop_spec (up : List (Frame α)) (l : Tree α) (x : α) (r : Tree α) :
    (getMaxLoop up l x r).right = Tree.nil ∧
      plug (getMaxLoop up l x r).up (getMaxLoop up l x r).tree = plug up (Tree.node l x r) ∧
      after (getMaxLoop up l x r).up = after up := by
  induction r generalizing up x l with
  | nil => simp [getMaxLoop, Loc.tree]
  | node rl rx rr _ ihr =>
    have h := ihr (⟨Side.right, x, l⟩ :: up) rl rx
    simpa [getMaxLoop, plug, after] using h

/-! ## Insertion -/

section OrderedLemmas

variable [LinearOrder α]

theorem insertLoop_spec (value : α) (t : Tree α) :
    ∀ (up : List (Frame α)) (p0 : Option (Loc α)), t ≠ Tree.nil →
      ∃ p, insertLoop value up t p0 = some p ∧
        (if value < p.value then
            plug p.up (Tree.node (Tree.node Tree.nil value Tree.nil) p.value p.right)
          else
            plug p.up (Tree.node p.left p.value (Tree.node Tree.nil value Tree.nil)))
          = plug up (t.insertRec value) := by
  induction t with
  | nil => intro _ _ h; exact absurd rfl h
  | node l x r ihl ihr =>
    intro up p0 _
    by_cases hx : x > value
    · cases l with
      | nil =>
        refine ⟨⟨up, Tree.nil, x, r⟩, by simp [insertLoop, hx], ?_⟩
        have hx2 : value < x := hx
        simp [Tree.insertRec, hx, hx2]
      | node ll lx lr =>
        obtain ⟨p, hp, hq⟩ := ihl (⟨Side.left, x, r⟩ :: up)
          (some ⟨up, Tree.node ll lx lr, x, r⟩) (by simp)
        refine ⟨p, by simp only [insertLoop, hx, if_true]; exact hp, ?_⟩
        rw [hq]
        conv_rhs => rw [Tree.insertRec]
        simp [hx, plug]
    · cases r with
      | nil =>
        refine ⟨⟨up, l, x, Tree.nil⟩, by simp [insertLoop, hx], ?_⟩
        have hx2 : ¬ value < x := hx
        simp [Tree.insertRec, hx, hx2]
      | node rl rx rr =>
        obtain ⟨p, hp, hq⟩ := ihr (⟨Side.right, x, l⟩ :: up)
          (some ⟨up, l, x, Tree.node rl rx rr⟩) (by simp)
        refine ⟨p, by simp only [insertLoop, hx, if_false]; exact hp, ?_⟩
        rw [hq]
        conv_rhs => rw [Tree.insertRec]
        simp [hx, plug]

theorem insert_eq (t : BST α) (value : α) (h : t.m_size = t.m_root.count) :
    t.insert value = ⟨t.m_root.insertRec value, t.m_size + 1⟩ := by
  unfold insert
  by_cases he : t.empty = true
  · have h0 : t.m_size = 0 := by simpa [empty] using he
    have hr : t.m_root = Tree.nil := count_eq_zero.mp (h ▸ h0)
    simp [he, hr, Tree.insertRec]
  · have h0 : t.m_size ≠ 0 := by simpa [empty] using he
    have hr : t.m_root ≠ Tree.nil := fun hn => h0 (by rw [h, hn]; rfl)
    obtain ⟨p, hp, hq⟩ := insertLoop_spec value t.m_root [] none hr
    rw [if_neg he]
    simp only [hp]
    split_ifs with hv
    · simp only [hv, if_true] at hq
      simp [hq, plug]
    · simp only [hv, if_false] at hq
      simp [hq, plug]

theorem perm_insertRec (value : α) (t : Tree α) :
    (t.insertRec value).toList.Perm (value :: t.toList) := by
  induction t with
  | nil => simp [Tree.insertRec, Tree.toList]
  | node l x r ihl ihr =>
    unfold Tree.insertRec
    split_ifs
    · simp only [Tree.toList]
      exact (ihl.append_right _).trans (by simp)
    · simp only [Tree.toList]
      refine ((ihr.cons x).append_left _).trans ?_
      simpa using @List.perm_middle _ value (l.toList ++ [x]) r.toList

theorem count_insertRec (value : α) (t : Tree α) :
    (t.insertRec value).count = t.count + 1 := by
  rw [← length_toList, ← length_toList, (perm_insertRec value t).length_eq]
  simp

theorem ordered_insertRec (value : α) (t : Tree α) (h : t.Ordered) :
    (t.insertRec value).Ordered := by
  induction t with
  | nil => simp [Tree.insertRec, Tree.Ordered, Tree.toList]
  | node l x r ihl ihr =>
    obtain ⟨hl, hr, hlt, hge⟩ := h
    unfold Tree.insertRec
    split_ifs with hx
    · refine ⟨ihl hl, hr, ?_, hge⟩
      intro y hy
      have := (perm_insertRec value l).mem_iff.mp hy
      simp only [List.mem_cons] at this
      rcases this with rfl | hy
      · exact hx
      · exact hlt y hy
    · refine ⟨hl, ihr hr, hlt, ?_⟩
      intro y hy
      have := (perm_insertRec value r).mem_iff.mp hy
      simp only [List.mem_cons] at this
      rcases this with rfl | hy
      · exact not_lt.mp hx
      · exact hge y hy

theorem valid_insert (t : BST α) (value : α) (h : Valid t) : Valid (t.insert value) := by
  rw [insert_eq t value h.1]
  exact ⟨by simp [count_insertRec, h.1], ordered_insertRec value _ h.2⟩

/-! ## The ordering and sortedness -/

theorem sorted_toList (t : Tree α) (h : t.Ordered) : t.toList.Sorted (· ≤ ·) := by
  induction t with
  | nil => simp [Tree.toList]
  | node l x r ihl ihr =>
    obtain ⟨hl, hr, hlt, hge⟩ := h
    simp only [Tree.toList, List.Sorted, List.pairwise_append, List.pairwise_cons,
      List.mem_cons]
    refine ⟨ihl hl, ⟨hge, ihr hr⟩, ?_⟩
    rintro a ha b (rfl | hb)
    · exact le_of_lt (hlt a ha)
    · exact le_trans (le_of_lt (hlt a ha)) (hge b hb)

theorem ordered_of_plug (up : List (Frame α)) (t : Tree α) (h : (plug up t).Ordered) :
    t.Ordered := by
  induction up generalizing t with
  | nil => exact h
  | cons fr up ih =>
    obtain ⟨sd, pv, sib⟩ := fr
    cases sd
    · exact (ih _ h).1
    · exact (ih _ h).2.1

theorem ordered_plug_of_subset (up : List (Frame α)) (t s : Tree α)
    (h : (plug up t).Ordered) (hs : s.Ordered) (hsub : ∀ y ∈ s.toList, y ∈ t.toList) :
    (plug up s).Ordered := by
  induction up generalizing t s with
  | nil => exact hs
  | cons fr up ih =>
    obtain ⟨sd, pv, sib⟩ := fr
    cases sd
    · obtain ⟨_, h2, h3, h4⟩ := ordered_of_plug up _ h
      refine ih (Tree.node t pv sib) (Tree.node s pv sib) h
        ⟨hs, h2, fun y hy => h3 y (hsub y hy), h4⟩ ?_
      intro y hy
      simp only [Tree.toList, List.mem_append, List.mem_cons] at hy ⊢
      rcases hy with hy | hy | hy
      · exact Or.inl (hsub y hy)
      · exact Or.inr (Or.inl hy)
      · exact Or.inr (Or.inr hy)
    · obtain ⟨h1, _, h3, h4⟩ := ordered_of_plug up _ h
      refine ih (Tree.node sib pv t) (Tree.node sib pv s) h
        ⟨h1, hs, h3, fun y hy => h4 y (hsub y hy)⟩ ?_
      intro y hy
      simp only [Tree.toList, List.mem_append, List.mem_cons] at hy ⊢
      rcases hy with hy | hy | hy
      · exact Or.inl hy
      · exact Or.inr (Or.inl hy)
      · exact Or.inr (Or.inr (hsub y hy))

/-! ## Lookup -/

theorem getNode_spec (value : α) (t : Tree α) :
    ∀ (up : List (Frame α)) (n : Loc α), getNode value up t = some n →
      n.value = value ∧ plug n.up n.tree = plug up t ∧
        (t.Ordered → (∀ y ∈ before n.up, y ∈ before up ∨ y < value) ∧
          (∀ y ∈ n.left.toList, y < value)) := by
  induction t with
  | nil => intro up n h; simp [getNode] at h
  | node l x r ihl ihr =>
    intro up n h
    unfold getNode at h
    by_cases hx : x ≠ value
    · rw [if_pos hx] at h
      by_cases hv : value > x
      · rw [if_pos hv] at h
        obtain ⟨h1, h2, h3⟩ := ihr _ n h
        refine ⟨h1, by simpa [plug] using h2, fun ho => ?_⟩
        obtain ⟨h4, h5⟩ := h3 ho.2.1
        refine ⟨fun y hy => ?_, h5⟩
        rcases h4 y hy with hb | hb
        · simp only [before, List.mem_append, List.mem_singleton] at hb
          rcases hb with hb | hb | hb
          · exact Or.inl hb
          · exact Or.inr (lt_trans (ho.2.2.1 y hb) hv)
          · exact Or.inr (hb ▸ hv)
        · exact Or.inr hb
      · rw [if_neg hv] at h
        obtain ⟨h1, h2, h3⟩ := ihl _ n h
        refine ⟨h1, by simpa [plug] using h2, fun ho => ?_⟩
        obtain ⟨h4, h5⟩ := h3 ho.1
        refine ⟨fun y hy => ?_, h5⟩
        rcases h4 y hy with hb | hb
        · exact Or.inl (by simpa [before] using hb)
        · exact Or.inr hb
    · rw [if_neg hx] at h
      have hxv : x = value := not_not.mp hx
      cases h
      refine ⟨hxv, rfl, fun ho => ⟨fun y hy => Or.inl hy, fun y hy => ?_⟩⟩
      exact hxv ▸ ho.2.2.1 y hy

theorem getNode_isSome_iff (value : α) (t : Tree α) (h : t.Ordered) :
    ∀ up : List (Frame α), (getNode value up t).isSome = true ↔ value ∈ t.toList := by
  induction t with
  | nil => intro up; simp [getNode, Tree.toList]
  | node l x r ihl ihr =>
    intro up
    obtain ⟨hl, hr, hlt, hge⟩ := h
    unfold getNode
    by_cases hx : x ≠ value
    · rw [if_pos hx]
      by_cases hv : value > x
      · rw [if_pos hv, ihr hr]
        simp only [Tree.toList, List.mem_append, List.mem_cons]
        constructor
        · exact fun hm => Or.inr (Or.inr hm)
        · rintro (hm | hm | hm)
          · exact absurd (hlt _ hm) (not_lt.mpr (le_of_lt hv))
          · exact absurd hm.symm hx
          · exact hm
      · rw [if_neg hv, ihl hl]
        simp only [Tree.toList, List.mem_append, List.mem_cons]
        constructor
        · exact fun hm => Or.inl hm
        · rintro (hm | hm | hm)
          · exact hm
          · exact absurd hm.symm hx
          · exact absurd (lt_of_le_of_ne (hge _ hm) hx) hv
    · rw [if_neg hx]
      have hxv : x = value := not_not.mp hx
      simp [Tree.toList, hxv]

theorem getNode_toList (value : α) (t : Tree α) (n : Loc α)
    (h : getNode value [] t = some n) :
    t.toList = (before n.up ++ n.left.toList) ++ value :: (n.right.toList ++ after n.up) := by
  obtain ⟨h1, h2, _⟩ := getNode_spec value t [] n h
  have := toList_plug n.up n.tree
  rw [h2] at this
  simpa [plug, Loc.tree, Tree.toList, h1] using this

/-! ## Removal -/

theorem removeNode_spec (t : BST α) (n : Loc α) :
    ∃ R : Tree α, removeNode t (some n) = ⟨plug n.up R, t.m_size - 1⟩ ∧
      R.toList = n.left.toList ++ n.right.toList ∧ (n.tree.Ordered → R.Ordered) := by
  obtain ⟨up, l, x, r⟩ := n
  cases l with
  | nil =>
    refine ⟨r, ?_, by simp [Tree.toList], fun h => h.2.1⟩
    simp [removeNode, transplant, transplantTree_eq]
  | node ll lx lr =>
    cases r with
    | nil =>
      refine ⟨Tree.node ll lx lr, ?_, by simp [Tree.toList], fun h => h.1⟩
      simp [removeNode, transplant, transplantTree_eq]
    | node rl rx rr =>
      obtain ⟨h1, h2, h3⟩ := getMinLoop_spec [] rl rx rr
      have hl := toList_plug (getMinLoop [] rl rx rr).up (getMinLoop [] rl rx rr).tree
      have hr := toList_plug (getMinLoop [] rl rx rr).up (getMinLoop [] rl rx rr).right
      rw [h2] at hl
      simp only [h3, before, plug, Loc.tree, h1, Tree.toList, List.nil_append] at hl hr
      refine ⟨Tree.node (Tree.node ll lx lr) (getMinLoop [] rl rx rr).value
        (plug (getMinLoop [] rl rx rr).up (getMinLoop [] rl rx rr).right), ?_, ?_, ?_⟩
      · simp only [removeNode, transplant]
        rw [succRight_eq, transplantTree_eq]
      · simp only [Tree.toList] at hl ⊢
        rw [hr, hl]
        simp
      · intro ho
        obtain ⟨ho1, ho2, ho3, ho4⟩ := ho
        have hs := sorted_toList _ ho2
        simp only [Tree.toList] at hs
        rw [hl, List.cons_append, ← hr] at hs
        have hmem : (getMinLoop [] rl rx rr).value ∈ (Tree.node rl rx rr).toList := by
          rw [Tree.toList, hl]; simp
        refine ⟨ho1, ?_, ?_, ?_⟩
        · refine ordered_plug_of_subset _ (getMinLoop [] rl rx rr).tree _
            (by rw [h2]; exact ho2) ?_ ?_
          · have := ordered_of_plug _ _ (show (plug (getMinLoop [] rl rx rr).up
              (getMinLoop [] rl rx rr).tree).Ordered by rw [h2]; exact ho2)
            exact this.2.1
          · intro y hy
            simp [Loc.tree, Tree.toList, hy]
        · intro y hy
          exact lt_of_lt_of_le (ho3 y hy) (ho4 _ hmem)
        · intro y hy
          exact List.rel_of_sorted_cons hs y hy

theorem remove_spec (t : BST α) (value : α) (n : Loc α)
    (hn : getNode value [] t.m_root = some n) :
    ∃ R : Tree α, t.remove value = ⟨plug n.up R, t.m_size - 1⟩ ∧
      R.toList = n.left.toList ++ n.right.toList ∧ (n.tree.Ordered → R.Ordered) := by
  unfold remove
  rw [hn]
  exact removeNode_spec t n

theorem remove_of_none (t : BST α) (value : α) (hn : getNode value [] t.m_root = none) :
    t.remove value = t := by
  unfold remove
  rw [hn]
  rfl

theorem toList_remove (t : BST α) (value : α) (n : Loc α)
    (hn : getNode value [] t.m_root = some n) :
    (t.remove value).m_root.toList
      = (before n.up ++ n.left.toList) ++ (n.right.toList ++ after n.up) := by
  obtain ⟨R, h1, h2, _⟩ := remove_spec t value n hn
  rw [h1]
  simp [toList_plug, h2]

theorem valid_remove (t : BST α) (value : α) (h : Valid t) : Valid (t.remove value) := by
  cases hn : getNode value [] t.m_root with
  | none => rw [remove_of_none t value hn]; exact h
  | some n =>
    have hl := toList_remove t value n hn
    have ht := getNode_toList value t.m_root n hn
    obtain ⟨R, h1, h2, h3⟩ := remove_spec t value n hn
    obtain ⟨_, hp, _⟩ := getNode_spec value t.m_root [] n hn
    simp only [plug] at hp
    have ho : (plug n.up n.tree).Ordered := by rw [hp]; exact h.2
    constructor
    · have e1 := congrArg List.length hl
      have e2 := congrArg List.length ht
      rw [length_toList] at e1 e2
      rw [h1] at e1 ⊢
      simp only [List.length_append, List.length_cons] at e1 e2
      simp only [e1, h.1, e2]
      omega
    · rw [h1]
      refine ordered_plug_of_subset n.up n.tree R ho (h3 (ordered_of_plug _ _ ho)) ?_
      intro y hy
      rw [h2] at hy
      simp only [Loc.tree, Tree.toList, List.mem_append, List.mem_cons] at hy ⊢
      rcases hy with hy | hy
      · exact Or.inl hy
      · exact Or.inr (Or.inr hy)

/-! ## Reachable trees -/

theorem valid_foldl (ops : List (Op α)) (t : BST α) (h : Valid t) :
    Valid (ops.foldl step t) := by
  induction ops generalizing t with
  | nil => exact h
  | cons op ops ih =>
    cases op with
    | insert v => exact ih _ (valid_insert t v h)
    | remove v => exact ih _ (valid_remove t v h)

theorem valid_run (ops : List (Op α)) : Valid (run ops) :=
  valid_foldl ops empty_tree ⟨rfl, trivial⟩

theorem run_size (ops : List (Op α)) : (run ops).m_size = (run ops).m_root.count :=
  (valid_run ops).1

theorem foldl_insert_spec (l : List α) (t : BST α) (h : Valid t) :
    Valid (l.foldl insert t) ∧ (l.foldl insert t).m_root.toList.Perm (l ++ t.m_root.toList) := by
  induction l generalizing t with
  | nil => exact ⟨h, List.Perm.refl _⟩
  | cons x l ih =>
    obtain ⟨h1, h2⟩ := ih (t.insert x) (valid_insert t x h)
    refine ⟨h1, h2.trans ?_⟩
    rw [insert_eq t x h.1]
    refine ((perm_insertRec x t.m_root).append_left l).trans ?_
    exact @List.perm_middle _ x l t.m_root.toList

theorem stored_iff_getNode (t : BST α) (h : Valid t) (value : α) :
    value ∈ t.inorder ↔ (getNode value [] t.m_root).isSome = true := by
  rw [inorder_eq_toList, getNode_isSome_iff value t.m_root h.2 []]

theorem getNode_before_lt (t : Tree α) (h : t.Ordered) (value : α) (n : Loc α)
    (hn : getNode value [] t = some n) :
    ∀ y ∈ before n.up ++ n.left.toList, y < value := by
  obtain ⟨_, _, h3⟩ := getNode_spec value t [] n hn
  obtain ⟨h4, h5⟩ := h3 h
  intro y hy
  rcases List.mem_append.mp hy with hy | hy
  · rcases h4 y hy with hb | hb
    · simp [before] at hb
    · exact hb
  · exact h5 y hy

theorem foldl_step_size (ops : List (Op α)) (t : BST α) (h : Valid t) :
    (ops.foldl step t).m_size + matchedRemoves t ops = t.m_size + insertCalls ops := by
  induction ops generalizing t with
  | nil => simp [matchedRemoves, insertCalls]
  | cons op ops ih =>
    cases op with
    | insert v =>
      have := ih _ (valid_insert t v h)
      have hsz : (t.insert v).m_size = t.m_size + 1 := by rw [insert_eq t v h.1]
      simp only [List.foldl_cons, step, matchedRemoves, insertCalls]
      omega
    | remove v =>
      have := ih _ (valid_remove t v h)
      simp only [List.foldl_cons, step, matchedRemoves, insertCalls]
      by_cases hv : v ∈ t.inorder
      · obtain ⟨n, hn⟩ := Option.isSome_iff_exists.mp ((stored_iff_getNode t h v).mp hv)
        obtain ⟨R, h1, _, _⟩ := remove_spec t v n hn
        have hpos : 0 < t.m_size := by
          rw [h.1, ← length_toList, ← inorder_eq_toList]
          exact List.length_pos_of_mem hv
        have hsz : (t.remove v).m_size = t.m_size - 1 := by rw [h1]
        rw [if_pos hv]
        omega
      · have hnone : getNode v [] t.m_root = none := by
          have := mt (stored_iff_getNode t h v).mpr hv
          simpa using this
        rw [remove_of_none t v hnone] at this ⊢
        rw [if_neg hv]
        omega

end OrderedLemmas

/-! ## Extremes and neighbours -/

theorem climbWhileLeft_spec (up : List (Frame α)) (t : Tree α) :
    (climbWhileLeft up t).map Loc.value = (before up).getLast? := by
  induction up generalizing t with
  | nil => rfl
  | cons fr up ih =>
    obtain ⟨sd, pv, sib⟩ := fr
    cases sd
    · simpa [climbWhileLeft, before] using ih _
    · simp [climbWhileLeft, before, List.getLast?_append]

theorem climbWhileRight_spec (up : List (Frame α)) (t : Tree α) :
    (climbWhileRight up t).map Loc.value = (after up).head? := by
  induction up generalizing t with
  | nil => rfl
  | cons fr up ih =>
    obtain ⟨sd, pv, sib⟩ := fr
    cases sd
    · simp [climbWhileRight, after]
    · simpa [climbWhileRight, after] using ih _

theorem getMinLoop_toList (up : List (Frame α)) (l : Tree α) (x : α) (r : Tree α) :
    (getMinLoop up l x r).value ::
        ((getMinLoop up l x r).right.toList ++ after (getMinLoop up l x r).up)
      = (Tree.node l x r).toList ++ after up := by
  obtain ⟨h1, h2, h3⟩ := getMinLoop_spec up l x r
  have e1 := toList_plug (getMinLoop up l x r).up (getMinLoop up l x r).tree
  rw [h2, toList_plug, h3] at e1
  have e2 := List.append_cancel_left e1
  simpa [Loc.tree, h1, Tree.toList] using e2.symm

theorem getMaxLoop_toList (up : List (Frame α)) (l : Tree α) (x : α) (r : Tree α) :
    (before (getMaxLoop up l x r).up ++ (getMaxLoop up l x r).left.toList)
        ++ [(getMaxLoop up l x r).value]
      = before up ++ (Tree.node l x r).toList := by
  obtain ⟨h1, h2, h3⟩ := getMaxLoop_spec up l x r
  have e1 := toList_plug (getMaxLoop up l x r).up (getMaxLoop up l x r).tree
  rw [h2, toList_plug, h3, ← List.append_assoc, ← List.append_assoc] at e1
  have e2 := List.append_cancel_right e1
  simpa [Loc.tree, h1, Tree.toList] using e2.symm

theorem getPedecessor_spec (n : Loc α) :
    (getPedecessor (some n)).map Loc.value = (before n.up ++ n.left.toList).getLast? := by
  obtain ⟨up, l, x, r⟩ := n
  cases l with
  | nil => simpa [getPedecessor, Loc.leftChild, Tree.toList] using climbWhileLeft_spec up _
  | node ll lx lr =>
    have h := getMaxLoop_toList (⟨Side.left, x, r⟩ :: up) ll lx lr
    simp only [before] at h
    simp only [getPedecessor, Loc.leftChild, getMax, Option.map_some']
    rw [← h]
    simp

theorem getSuccessor_spec (n : Loc α) :
    (getSuccessor (some n)).map Loc.value = (n.right.toList ++ after n.up).head? := by
  obtain ⟨up, l, x, r⟩ := n
  cases r with
  | nil => simpa [getSuccessor, Loc.rightChild, Tree.toList] using climbWhileRight_spec up _
  | node rl rx rr =>
    have h := getMinLoop_toList (⟨Side.right, x, l⟩ :: up) rl rx rr
    simp only [after] at h
    simp only [getSuccessor, Loc.rightChild, getMin, Option.map_some']
    rw [← h]
    simp

section NeighbourLemmas

variable [LinearOrder α]

theorem empty_eq_false_iff (t : BST α) (h : Valid t) :
    t.empty = false ↔ t.inorder ≠ [] := by
  rw [inorder_eq_toList, Ne, toList_eq_nil, ← count_eq_zero, ← h.1]
  simp [empty]

theorem pedecessorOf_eq (t : BST α) (h : Valid t) (x : α) (n : Loc α)
    (hn : getNode x [] t.m_root = some n) :
    t.pedecessorOf x = Except.ok ((before n.up ++ n.left.toList).getLast?.getD x) := by
  have hne : t.empty = false := by
    rw [empty_eq_false_iff t h, inorder_eq_toList, getNode_toList x _ n hn]
    simp
  have hs := getPedecessor_spec n
  unfold pedecessorOf
  rw [hn]
  simp only [hne, Bool.false_eq_true, if_false]
  rw [← hs]
  cases getPedecessor (some n) <;> rfl

theorem successorOf_eq (t : BST α) (h : Valid t) (x : α) (n : Loc α)
    (hn : getNode x [] t.m_root = some n) :
    t.successorOf x = Except.ok ((n.right.toList ++ after n.up).head?.getD x) := by
  have hne : t.empty = false := by
    rw [empty_eq_false_iff t h, inorder_eq_toList, getNode_toList x _ n hn]
    simp
  have hs := getSuccessor_spec n
  unfold successorOf
  rw [hn]
  simp only [hne, Bool.false_eq_true, if_false]
  rw [← hs]
  cases getSuccessor (some n) <;> rfl

/-- In a valid tree the result of `pedecessorOf` on a stored value is the
greatest stored value below it, or the value itself when there is none. -/
theorem pedecessorOf_valid (t : BST α) (h : Valid t) (x : α) (hx : x ∈ t.inorder) :
    ∃ p, t.pedecessorOf x = Except.ok p ∧
      ((∃ y ∈ t.inorder, y < x) →
        p ∈ t.inorder ∧ p < x ∧ ∀ y ∈ t.inorder, y < x → y ≤ p) ∧
      ((∀ y ∈ t.inorder, ¬ y < x) → p = x) := by
  obtain ⟨n, hn⟩ := Option.isSome_iff_exists.mp ((stored_iff_getNode t h x).mp hx)
  have hb := getNode_toList x _ n hn
  have hlt := getNode_before_lt _ h.2 x n hn
  have hs := sorted_toList _ h.2
  rw [hb] at hs
  rw [inorder_eq_toList, hb]
  refine ⟨_, pedecessorOf_eq t h x n hn, ?_, ?_⟩
  · rintro ⟨y, hy, hyx⟩
    have hyB : ∀ z ∈ (before n.up ++ n.left.toList) ++ x :: (n.right.toList ++ after n.up),
        z < x → z ∈ before n.up ++ n.left.toList := by
      intro z hz hzx
      rcases List.mem_append.mp hz with hz | hz
      · exact hz
      · rcases List.mem_cons.mp hz with hz | hz
        · exact absurd hzx (hz ▸ lt_irrefl z)
        · exact absurd hzx (not_lt.mpr (List.rel_of_sorted_cons
            (List.pairwise_append.mp hs).2.1 z hz))
    have hne : before n.up ++ n.left.toList ≠ [] := List.ne_nil_of_mem (hyB y hy hyx)
    rcases List.eq_nil_or_concat (before n.up ++ n.left.toList) with hnil | ⟨ini, p, hip⟩
    · exact absurd hnil hne
    rw [List.concat_eq_append] at hip
    rw [hip] at hs hlt hyB ⊢
    have hlast : ((ini ++ [p]).getLast?).getD x = p := by simp
    rw [hlast]
    refine ⟨by simp, hlt p (by simp), fun z hz hzx => ?_⟩
    have := hyB z hz hzx
    rcases List.mem_append.mp this with hz | hz
    · exact (List.pairwise_append.mp (List.pairwise_append.mp hs).1).2.2 z hz p (by simp)
    · exact le_of_eq (List.mem_singleton.mp hz)
  · intro hall
    have hnil : before n.up ++ n.left.toList = [] := by
      rcases List.eq_nil_or_concat (before n.up ++ n.left.toList) with hnil | ⟨ini, p, hip⟩
      · exact hnil
      · exfalso
        have hp : p ∈ before n.up ++ n.left.toList := by rw [hip]; simp
        exact hall p (List.mem_append_left _ hp) (hlt p hp)
    rw [hnil]
    rfl

/-- In a valid tree the result of `successorOf` on a value stored exactly once
is the least stored value above it, or the value itself when there is none. -/
theorem successorOf_valid (t : BST α) (h : Valid t) (x : α) (hx : t.inorder.count x = 1) :
    ∃ s, t.successorOf x = Except.ok s ∧
      ((∃ y ∈ t.inorder, x < y) →
        s ∈ t.inorder ∧ x < s ∧ ∀ y ∈ t.inorder, x < y → s ≤ y) ∧
      ((∀ y ∈ t.inorder, ¬ x < y) → s = x) := by
  have hmem : x ∈ t.inorder := List.count_pos_iff.mp (by omega)
  obtain ⟨n, hn⟩ := Option.isSome_iff_exists.mp ((stored_iff_getNode t h x).mp hmem)
  have hb := getNode_toList x _ n hn
  have hlt := getNode_before_lt _ h.2 x n hn
  have hs := sorted_toList _ h.2
  rw [hb] at hs
  rw [inorder_eq_toList, hb] at hx
  rw [inorder_eq_toList, hb]
  have hxA : x ∉ n.right.toList ++ after n.up := by
    intro hm
    have := List.count_pos_iff.mpr hm
    rw [List.count_append, List.count_cons_self] at hx
    omega
  have hgt : ∀ z ∈ n.right.toList ++ after n.up, x < z := by
    intro z hz
    refine lt_of_le_of_ne (List.rel_of_sorted_cons (List.pairwise_append.mp hs).2.1 z hz) ?_
    rintro rfl
    exact hxA hz
  refine ⟨_, successorOf_eq t h x n hn, ?_, ?_⟩
  · rintro ⟨y, hy, hxy⟩
    have hyA : ∀ z ∈ (before n.up ++ n.left.toList) ++ x :: (n.right.toList ++ after n.up),
        x < z → z ∈ n.right.toList ++ after n.up := by
      intro z hz hxz
      rcases List.mem_append.mp hz with hz | hz
      · exact absurd hxz (not_lt.mpr (le_of_lt (hlt z hz)))
      · rcases List.mem_cons.mp hz with hz | hz
        · exact absurd hxz (hz ▸ lt_irrefl z)
        · exact hz
    have hyA0 := hyA y hy hxy
    cases hA : n.right.toList ++ after n.up with
    | nil => rw [hA] at hyA0; exact absurd hyA0 (List.not_mem_nil _)
    | cons s rest =>
      rw [hA] at hs hgt hyA
      simp only [List.head?_cons, Option.getD_some]
      refine ⟨by simp, hgt s (by simp), fun z hz hxz => ?_⟩
      rcases List.mem_cons.mp (hyA z hz hxz) with hz | hz
      · exact le_of_eq hz.symm
      · exact List.rel_of_sorted_cons (List.sorted_cons.mp (List.pairwise_append.mp hs).2.1).2 z hz
  · intro hall
    cases hA : n.right.toList ++ after n.up with
    | nil => rfl
    | cons s rest =>
      exfalso
      have hsA : s ∈ n.right.toList ++ after n.up := by rw [hA]; simp
      refine hall s ?_ (hgt s hsA)
      exact List.mem_append_right _ (List.mem_cons_of_mem _ hsA)

/-- With no node holding the value, `pedecessorOf` and `successorOf` of a
non-empty tree hand the queried value back. -/
theorem neighbours_of_none (t : BST α) (v : α) (he : t.empty = false)
    (hn : getNode v [] t.m_root = none) :
    t.pedecessorOf v = Except.ok v ∧ t.successorOf v = Except.ok v := by
  unfold pedecessorOf successorOf
  rw [hn]
  simp [he, getPedecessor, getSuccessor]

/-- In a valid non-empty tree `min()` and `max()` return the two ends of the
in-order sequence, which bound every stored value. -/
theorem min_max_valid (t : BST α) (h : Valid t) (he : t.empty = false) :
    ∃ lo hi, t.min = Except.ok lo ∧ t.max = Except.ok hi ∧
      t.inorder.head? = some lo ∧ t.inorder.getLast? = some hi ∧
      ∀ y ∈ t.inorder, lo ≤ y ∧ y ≤ hi := by
  have hs := sorted_toList _ h.2
  rw [inorder_eq_toList]
  have hne := (empty_eq_false_iff t h).mp he
  rw [inorder_eq_toList] at hne
  unfold min max
  simp only [he, Bool.false_eq_true, if_false]
  cases hr : t.m_root with
  | nil => rw [hr] at hne; exact absurd rfl hne
  | node l x r =>
    rw [hr] at hs
    have hmin := getMinLoop_toList [] l x r
    have hmax := getMaxLoop_toList [] l x r
    simp only [after, before, List.append_nil, List.nil_append] at hmin hmax
    refine ⟨(getMinLoop [] l x r).value, (getMaxLoop [] l x r).value, rfl, rfl, ?_, ?_, ?_⟩
    · rw [← hmin]; rfl
    · rw [← hmax]; simp
    · intro y hy
      constructor
      · rw [← hmin] at hs hy
        rcases List.mem_cons.mp hy with hy | hy
        · exact le_of_eq hy.symm
        · exact List.rel_of_sorted_cons hs y hy
      · rw [← hmax] at hs hy
        rcases List.mem_append.mp hy with hy | hy
        · exact (List.pairwise_append.mp hs).2.2 y hy _ (by simp)
        · exact le_of_eq (List.mem_singleton.mp hy)

theorem valid_ofList (l : List α) : Valid (ofList l) :=
  (foldl_insert_spec l empty_tree ⟨rfl, trivial⟩).1

theorem getNode_none_of_absent (t : BST α) (h : Valid t) (v : α) (hv : v ∉ t.inorder) :
    getNode v [] t.m_root = none := by
  have := mt (stored_iff_getNode t h v).mpr hv
  simpa using this

end NeighbourLemmas

/-! ## The documented behaviour -/

section Claims

variable [LinearOrder α]

/-- C1: whatever values are inserted one by one into an empty tree, the in-order
traversal visits them in non-decreasing order, each with the multiplicity it was
inserted with; that is, it yields the inserted sequence sorted. -/
theorem inorder_ofList (l : List α) :
    (ofList l).inorder.Sorted (· ≤ ·) ∧ (ofList l).inorder.Perm l ∧
      (ofList l).inorder = l.insertionSort (· ≤ ·) := by
  obtain ⟨h1, h2⟩ := foldl_insert_spec l empty_tree ⟨rfl, trivial⟩
  have hs : (ofList l).inorder.Sorted (· ≤ ·) := by
    rw [inorder_eq_toList]; exact sorted_toList _ h1.2
  have hp : (ofList l).inorder.Perm l := by
    rw [inorder_eq_toList]; simpa [empty_tree, Tree.toList] using h2
  exact ⟨hs, hp, List.eq_of_perm_of_sorted
    (hp.trans (List.perm_insertionSort (· ≤ ·) l).symm) hs (List.sorted_insertionSort (· ≤ ·) l)⟩

/-- C2: in a tree reached from the empty tree by `insert` and `remove` calls,
`search v` answers true exactly when `v` is among the values the in-order
traversal visits; in particular a value stored several times is found. -/
theorem search_iff_stored (ops : List (Op α)) (v : α) :
    ((run ops).search v = true ↔ v ∈ (run ops).inorder) ∧
      (1 < (run ops).inorder.count v → (run ops).search v = true) := by
  have h := stored_iff_getNode (run ops) (valid_run ops) v
  refine ⟨h.symm, fun hc => h.mp ?_⟩
  exact List.count_pos_iff.mp (by omega)

/-- C3: in a reachable tree, `remove v` of a stored value `v` deletes exactly
one occurrence of `v`: the in-order sequence afterwards is the sequence before
with one `v` taken out, all other values keeping their place and multiplicity. -/
theorem remove_stored (ops : List (Op α)) (v : α) (h : v ∈ (run ops).inorder) :
    ((run ops).remove v).inorder = (run ops).inorder.erase v ∧
      (∃ xs ys, (run ops).inorder = xs ++ v :: ys ∧ ((run ops).remove v).inorder = xs ++ ys) ∧
      ((run ops).remove v).inorder.count v + 1 = (run ops).inorder.count v ∧
      ∀ y, y ≠ v → ((run ops).remove v).inorder.count y = (run ops).inorder.count y := by
  have hv := valid_run ops
  obtain ⟨n, hn⟩ := Option.isSome_iff_exists.mp ((stored_iff_getNode _ hv v).mp h)
  have hb := getNode_toList v _ n hn
  have ha := toList_remove _ v n hn
  have hlt := getNode_before_lt _ hv.2 v n hn
  have hnot : v ∉ before n.up ++ n.left.toList := fun hm => lt_irrefl v (hlt v hm)
  have he : ((run ops).remove v).inorder = (run ops).inorder.erase v := by
    rw [inorder_eq_toList, inorder_eq_toList, ha, hb, List.erase_append_right _ hnot]
    simp
  refine ⟨he, ⟨before n.up ++ n.left.toList, n.right.toList ++ after n.up, ?_, ?_⟩, ?_, ?_⟩
  · rw [inorder_eq_toList]; exact hb
  · rw [inorder_eq_toList]; exact ha
  · rw [he, List.count_erase_self]
    have := List.count_pos_iff.mpr h
    omega
  · intro y hy
    rw [he, List.count_erase_of_ne hy]

/-- C4: after any sequence of `insert` and `remove` calls made on an empty
tree, `size()` is the number of inserts minus the number of removes whose value
was stored when they were called; it is the number of nodes under the root, the
length of the in-order traversal, and `empty()` holds exactly when it is zero. -/
theorem size_after_run (ops : List (Op α)) :
    (run ops).size = insertCalls ops - matchedRemoves empty_tree ops ∧
      matchedRemoves empty_tree ops ≤ insertCalls ops ∧
      (run ops).size = (run ops).m_root.count ∧
      (run ops).size = (run ops).inorder.length ∧
      ((run ops).empty = true ↔ (run ops).inorder.length = 0) := by
  have h := foldl_step_size ops empty_tree ⟨rfl, trivial⟩
  have hc := run_size ops
  have hl : (run ops).inorder.length = (run ops).m_root.count := by
    rw [inorder_eq_toList, length_toList]
  have h0 : (empty_tree : BST α).m_size = 0 := rfl
  have hr : run ops = ops.foldl step empty_tree := rfl
  rw [← hr, h0] at h
  refine ⟨by simp only [size]; omega, by omega, hc, by simp only [size]; omega, ?_⟩
  simp only [empty, beq_iff_eq]
  omega

/-- C5: in a reachable tree, `remove v` of a value `v` that is not stored
changes nothing: `size()` and the outputs of the pre-order, in-order, post-order
and level-order traversals are what they were before the call. -/
theorem remove_absent (ops : List (Op α)) (v : α) (h : v ∉ (run ops).inorder) :
    ((run ops).remove v).size = (run ops).size ∧
      ((run ops).remove v).preorder = (run ops).preorder ∧
      ((run ops).remove v).inorder = (run ops).inorder ∧
      ((run ops).remove v).postorder = (run ops).postorder ∧
      ((run ops).remove v).levelorder = (run ops).levelorder := by
  have hnone : getNode v [] (run ops).m_root = none := by
    have := mt (stored_iff_getNode _ (valid_run ops) v).mpr h
    simpa using this
  rw [remove_of_none _ v hnone]
  exact ⟨rfl, rfl, rfl, rfl, rfl⟩

/-- C6: in a non-empty reachable tree `min()` returns the first element of the
in-order traversal and `max()` its last element, so that `min()` is below and
`max()` above every stored value. -/
theorem min_max_inorder (ops : List (Op α)) (h : (run ops).empty = false) :
    ∃ lo hi, (run ops).min = Except.ok lo ∧ (run ops).max = Except.ok hi ∧
      (run ops).inorder.head? = some lo ∧ (run ops).inorder.getLast? = some hi ∧
      ∀ y ∈ (run ops).inorder, lo ≤ y ∧ y ≤ hi :=
  min_max_valid (run ops) (valid_run ops) h

/-- C7: in a reachable tree, duplicates allowed, `pedecessorOf x` of a stored
value `x` returns the greatest stored value strictly below `x` when there is
one, and `x` itself when no stored value is smaller. -/
theorem pedecessorOf_stored (ops : List (Op α)) (x : α) (h : x ∈ (run ops).inorder) :
    ∃ p, (run ops).pedecessorOf x = Except.ok p ∧
      ((∃ y ∈ (run ops).inorder, y < x) →
        p ∈ (run ops).inorder ∧ p < x ∧ ∀ y ∈ (run ops).inorder, y < x → y ≤ p) ∧
      ((∀ y ∈ (run ops).inorder, ¬ y < x) → p = x) :=
  pedecessorOf_valid (run ops) (valid_run ops) x h

/-- C8: in a reachable tree, `successorOf x` of a value `x` stored exactly once
returns the least stored value strictly above `x` when there is one, and `x`
itself when no stored value is greater. -/
theorem successorOf_stored_once (ops : List (Op α)) (x : α)
    (h : (run ops).inorder.count x = 1) :
    ∃ s, (run ops).successorOf x = Except.ok s ∧
      ((∃ y ∈ (run ops).inorder, x < y) →
        s ∈ (run ops).inorder ∧ x < s ∧ ∀ y ∈ (run ops).inorder, x < y → s ≤ y) ∧
      ((∀ y ∈ (run ops).inorder, ¬ x < y) → s = x) :=
  successorOf_valid (run ops) (valid_run ops) x h

/-- C9, as stated, fails: after inserting 5, 5, 7 the value 7 is stored, its
predecessor 5 is a genuine one (a node is returned, holding a stored value
below 7), that 5 has a successor in the tree (a node is returned, and 7 is
stored above it), and yet `successorOf (pedecessorOf 7)` is 5, not 7. -/
theorem successorOf_pedecessorOf_duplicate :
    (7 : Nat) ∈ (ofList [5, 5, 7]).inorder ∧
      (ofList [5, 5, 7]).pedecessorOf 7 = Except.ok 5 ∧
      (getPedecessor (getNode 7 [] (ofList [5, 5, 7]).m_root)).isSome = true ∧
      (5 : Nat) ∈ (ofList [5, 5, 7]).inorder ∧ (5 : Nat) < 7 ∧
      (getSuccessor (getNode 5 [] (ofList [5, 5, 7]).m_root)).isSome = true ∧
      (∃ y ∈ (ofList [5, 5, 7]).inorder, 5 < y) ∧
      (ofList [5, 5, 7]).successorOf 5 = Except.ok 5 ∧
      (ofList [5, 5, 7]).successorOf 5 ≠ Except.ok 7 := by
  decide

/-- C9, amended: in a tree built by insertions, duplicates allowed, if a stored
value `x` has a genuine predecessor `p` (`pedecessorOf x` returns `p`, and `p`
is not the fallback `x`) and `p` is stored exactly once, then
`successorOf (pedecessorOf x)` is `x`. -/
theorem successorOf_pedecessorOf (l : List α) (x p : α) (hx : x ∈ (ofList l).inorder)
    (hp : (ofList l).pedecessorOf x = Except.ok p) (hg : p ≠ x)
    (h1 : (ofList l).inorder.count p = 1) :
    (ofList l).successorOf p = Except.ok x := by
  have hv := valid_ofList l
  obtain ⟨q, hq, hlow, hnone⟩ := pedecessorOf_valid _ hv x hx
  have hqp : q = p := by rw [hq] at hp; exact Except.ok.inj hp
  subst hqp
  have hex : ∃ y ∈ (ofList l).inorder, y < x := by
    by_contra hcon
    push_neg at hcon
    exact hg (hnone (fun y hy => not_lt.mpr (hcon y hy)))
  obtain ⟨_, hqx, hmax⟩ := hlow hex
  obtain ⟨s, hs, hup, _⟩ := successorOf_valid _ hv q h1
  obtain ⟨hsm, hqs, hmin⟩ := hup ⟨x, hx, hqx⟩
  have hsx : s ≤ x := hmin x hx hqx
  have hxs : x ≤ s := by
    by_contra hcon
    exact absurd (hmax s hsm (not_le.mp hcon)) (not_le.mpr hqs)
  rw [hs, le_antisymm hsx hxs]

/-- C10: in a non-empty reachable tree, `pedecessorOf v` and `successorOf v` of
a value `v` that is not stored both succeed and return `v` itself. -/
theorem neighbours_of_absent (ops : List (Op α)) (v : α) (he : (run ops).empty = false)
    (hv : v ∉ (run ops).inorder) :
    (run ops).pedecessorOf v = Except.ok v ∧ (run ops).successorOf v = Except.ok v :=
  neighbours_of_none (run ops) v he (getNode_none_of_absent _ (valid_run ops) v hv)

/-! ## Instances on concrete trees -/

/-- Instance of C3: removing the stored value 5 after inserting 5, 3, 8, 5. -/
theorem remove_stored_witness :
    (5 : Nat) ∈ (run [Op.insert 5, Op.insert 3, Op.insert 8, Op.insert 5]).inorder ∧
      (((run [Op.insert 5, Op.insert 3, Op.insert 8, Op.insert 5]).remove 5).inorder
          = (run [Op.insert 5, Op.insert 3, Op.insert 8, Op.insert 5]).inorder.erase (5 : Nat) ∧
        (∃ xs ys,
          (run [Op.insert 5, Op.insert 3, Op.insert 8, Op.insert 5]).inorder
            = xs ++ (5 : Nat) :: ys ∧
          ((run [Op.insert 5, Op.insert 3, Op.insert 8, Op.insert 5]).remove 5).inorder
            = xs ++ ys) ∧
        ((run [Op.insert 5, Op.insert 3, Op.insert 8, Op.insert 5]).remove 5).inorder.count 5 + 1
          = (run [Op.insert 5, Op.insert 3, Op.insert 8, Op.insert 5]).inorder.count (5 : Nat) ∧
        ∀ y : Nat, y ≠ 5 →
          ((run [Op.insert 5, Op.insert 3, Op.insert 8, Op.insert 5]).remove 5).inorder.count y
            = (run [Op.insert 5, Op.insert 3, Op.insert 8, Op.insert 5]).inorder.count y) :=
  ⟨by decide,
    remove_stored [Op.insert 5, Op.insert 3, Op.insert 8, Op.insert 5] 5 (by decide)⟩

/-- Instance of C5: removing the absent value 4 after inserting 5, 3, 8 and
removing 3. -/
theorem remove_absent_witness :
    (4 : Nat) ∉ (run [Op.insert 5, Op.insert 3, Op.insert 8, Op.remove 3]).inorder ∧
      (((run [Op.insert 5, Op.insert 3, Op.insert 8, Op.remove 3]).remove 4).size
          = (run [Op.insert 5, Op.insert 3, Op.insert 8, Op.remove 3]).size ∧
        ((run [Op.insert 5, Op.insert 3, Op.insert 8, Op.remove 3]).remove 4).preorder
          = (run [Op.insert 5, Op.insert 3, Op.insert 8, Op.remove 3]).preorder ∧
        ((run [Op.insert 5, Op.insert 3, Op.insert 8, Op.remove 3]).remove 4).inorder
          = (run [Op.insert 5, Op.insert 3, Op.insert 8, Op.remove 3]).inorder ∧
        ((run [Op.insert 5, Op.insert 3, Op.insert 8, Op.remove 3]).remove 4).postorder
          = (run [Op.insert 5, Op.insert 3, Op.insert 8, Op.remove 3]).postorder ∧
        ((run [Op.insert 5, Op.insert 3, Op.insert 8, Op.remove 3]).remove 4).levelorder
          = (run [Op.insert 5, Op.insert 3, Op.insert 8, Op.remove 3]).levelorder) :=
  ⟨by decide,
    remove_absent [Op.insert 5, Op.insert 3, Op.insert 8, Op.remove 3] 4 (by decide)⟩

/-- Instance of C6: the tree left by inserting 5, 3, 8 and removing 5. -/
theorem min_max_inorder_witness :
    (run [Op.insert 5, Op.insert 3, Op.insert 8, Op.remove 5]).empty = false ∧
      ∃ lo hi : Nat,
        (run [Op.insert 5, Op.insert 3, Op.insert 8, Op.remove 5]).min = Except.ok lo ∧
        (run [Op.insert 5, Op.insert 3, Op.insert 8, Op.remove 5]).max = Except.ok hi ∧
        (run [Op.insert 5, Op.insert 3, Op.insert 8, Op.remove 5]).inorder.head? = some lo ∧
        (run [Op.insert 5, Op.insert 3, Op.insert 8, Op.remove 5]).inorder.getLast? = some hi ∧
        ∀ y ∈ (run [Op.insert 5, Op.insert 3, Op.insert 8, Op.remove 5]).inorder,
          lo ≤ y ∧ y ≤ hi :=
  ⟨by decide,
    min_max_inorder [Op.insert 5, Op.insert 3, Op.insert 8, Op.remove 5] (by decide)⟩

/-- Instance of C7: the duplicated value 5 after inserting 5, 3, 5, 4. -/
theorem pedecessorOf_stored_witness :
    (5 : Nat) ∈ (run [Op.insert 5, Op.insert 3, Op.insert 5, Op.insert 4]).inorder ∧
      ∃ p : Nat,
        (run [Op.insert 5, Op.insert 3, Op.insert 5, Op.insert 4]).pedecessorOf 5
          = Except.ok p ∧
        ((∃ y ∈ (run [Op.insert 5, Op.insert 3, Op.insert 5, Op.insert 4]).inorder, y < 5) →
          p ∈ (run [Op.insert 5, Op.insert 3, Op.insert 5, Op.insert 4]).inorder ∧ p < 5 ∧
          ∀ y ∈ (run [Op.insert 5, Op.insert 3, Op.insert 5, Op.insert 4]).inorder,
            y < 5 → y ≤ p) ∧
        ((∀ y ∈ (run [Op.insert 5, Op.insert 3, Op.insert 5, Op.insert 4]).inorder, ¬ y < 5) →
          p = 5) :=
  ⟨by decide,
    pedecessorOf_stored [Op.insert 5, Op.insert 3, Op.insert 5, Op.insert 4] 5 (by decide)⟩

/-- Instance of C8: the value 5 after inserting 5, 3, 8, 7. -/
theorem successorOf_stored_once_witness :
    (run [Op.insert 5, Op.insert 3, Op.insert 8, Op.insert 7]).inorder.count (5 : Nat) = 1 ∧
      ∃ s : Nat,
        (run [Op.insert 5, Op.insert 3, Op.insert 8, Op.insert 7]).successorOf 5
          = Except.ok s ∧
        ((∃ y ∈ (run [Op.insert 5, Op.insert 3, Op.insert 8, Op.insert 7]).inorder, 5 < y) →
          s ∈ (run [Op.insert 5, Op.insert 3, Op.insert 8, Op.insert 7]).inorder ∧ 5 < s ∧
          ∀ y ∈ (run [Op.insert 5, Op.insert 3, Op.insert 8, Op.insert 7]).inorder,
            5 < y → s ≤ y) ∧
        ((∀ y ∈ (run [Op.insert 5, Op.insert 3, Op.insert 8, Op.insert 7]).inorder, ¬ 5 < y) →
          s = 5) :=
  ⟨by decide,
    successorOf_stored_once [Op.insert 5, Op.insert 3, Op.insert 8, Op.insert 7] 5 (by decide)⟩

/-- Instance of the amended C9: the duplicated value 7 after inserting 5, 7, 7. -/
theorem successorOf_pedecessorOf_witness :
    (7 : Nat) ∈ (ofList [5, 7, 7]).inorder ∧
      (ofList [5, 7, 7]).pedecessorOf 7 = Except.ok 5 ∧ (5 : Nat) ≠ 7 ∧
      (ofList [5, 7, 7]).inorder.count (5 : Nat) = 1 ∧
      (ofList [5, 7, 7]).successorOf 5 = Except.ok 7 :=
  ⟨by decide, by decide, by decide, by decide,
    successorOf_pedecessorOf [5, 7, 7] 7 5 (by decide) (by decide) (by decide) (by decide)⟩

/-- Instance of C10: the absent value 4 after inserting 5, 3, 8. -/
theorem neighbours_of_absent_witness :
    (run [Op.insert 5, Op.insert 3, Op.insert 8]).empty = false ∧
      (4 : Nat) ∉ (run [Op.insert 5, Op.insert 3, Op.insert 8]).inorder ∧
      (run [Op.insert 5, Op.insert 3, Op.insert 8]).pedecessorOf 4 = Except.ok 4 ∧
      (run [Op.insert 5, Op.insert 3, Op.insert 8]).successorOf 4 = Except.ok 4 :=
  ⟨by decide, by decide,
    neighbours_of_absent [Op.insert 5, Op.insert 3, Op.insert 8] 4 (by decide) (by decide)⟩

end Claims

/-! ## Failure on the empty tree, moves and copies -/

theorem empty_iff_count (t : BST α) (h : t.m_size = t.m_root.count) :
    t.empty = true ↔ t.m_root.count = 0 := by
  simp [empty, h]

section MoreLemmas

variable [LinearOrder α]

theorem neighbours_ok (t : BST α) (v : α) (he : t.empty = false) :
    (∃ x, t.pedecessorOf v = Except.ok x) ∧ (∃ x, t.successorOf v = Except.ok x) := by
  unfold pedecessorOf successorOf
  simp only [he, Bool.false_eq_true, if_false]
  constructor
  · cases getPedecessor (getNode v [] t.m_root) with
    | none => exact ⟨v, rfl⟩
    | some res => exact ⟨res.value, rfl⟩
  · cases getSuccessor (getNode v [] t.m_root) with
    | none => exact ⟨v, rfl⟩
    | some res => exact ⟨res.value, rfl⟩

theorem ordered_insert (t : BST α) (v : α) (h : t.m_root.Ordered) :
    (t.insert v).m_root.Ordered := by
  unfold insert
  by_cases he : t.empty = true
  · rw [if_pos he]
    simp [Tree.Ordered, Tree.toList]
  · rw [if_neg he]
    cases hr : t.m_root with
    | nil => simp [insertLoop, hr, Tree.Ordered]
    | node l x r =>
      obtain ⟨p, hp, hq⟩ := insertLoop_spec v (Tree.node l x r) [] none (by simp)
      have ho := ordered_insertRec v t.m_root h
      rw [hr] at ho
      simp only [hp]
      split_ifs with hv
      · simp only [hv, if_true, plug] at hq
        simpa [hq] using ho
      · simp only [hv, if_false, plug] at hq
        simpa [hq] using ho

theorem ordered_remove (t : BST α) (v : α) (h : t.m_root.Ordered) :
    (t.remove v).m_root.Ordered := by
  cases hn : getNode v [] t.m_root with
  | none => rw [remove_of_none t v hn]; exact h
  | some n =>
    obtain ⟨R, h1, h2, h3⟩ := remove_spec t v n hn
    obtain ⟨_, hp, _⟩ := getNode_spec v t.m_root [] n hn
    simp only [plug] at hp
    have ho : (plug n.up n.tree).Ordered := by rw [hp]; exact h
    rw [h1]
    refine ordered_plug_of_subset n.up n.tree R ho (h3 (ordered_of_plug _ _ ho)) ?_
    intro y hy
    rw [h2] at hy
    simp only [Loc.tree, Tree.toList, List.mem_append, List.mem_cons] at hy ⊢
    rcases hy with hy | hy
    · exact Or.inl hy
    · exact Or.inr (Or.inr hy)

theorem copy_eq_ofList (t : BST α) : copy t = ofList t.m_root.toList := by
  simp only [copy, inorderTraverse, doInorder_eq_foldl, ofList]

theorem copy_spec (t : BST α) (ho : t.m_root.Ordered) :
    Valid (copy t) ∧ (copy t).inorder = t.inorder := by
  rw [copy_eq_ofList]
  obtain ⟨h1, h2⟩ := foldl_insert_spec t.m_root.toList empty_tree ⟨rfl, trivial⟩
  refine ⟨h1, ?_⟩
  rw [inorder_eq_toList, inorder_eq_toList]
  refine List.eq_of_perm_of_sorted ?_ (sorted_toList _ h1.2) (sorted_toList _ ho)
  simpa [empty_tree, Tree.toList] using h2

theorem getNode_insertRec (v : α) (t : Tree α) (h : v ∉ t.toList) :
    ∀ up : List (Frame α), ∃ up2, getNode v up (t.insertRec v) = some ⟨up2, Tree.nil, v, Tree.nil⟩ ∧
      plug up2 Tree.nil = plug up t := by
  induction t with
  | nil =>
    intro up
    exact ⟨up, by simp [Tree.insertRec, getNode], rfl⟩
  | node l x r ihl ihr =>
    intro up
    simp only [Tree.toList, List.mem_append, List.mem_cons, not_or] at h
    obtain ⟨hl, hx, hr⟩ := h
    have hxv : x ≠ v := fun e => hx e.symm
    unfold Tree.insertRec
    by_cases hgt : x > v
    · obtain ⟨up2, h1, h2⟩ := ihl hl (⟨Side.left, x, r⟩ :: up)
      refine ⟨up2, ?_, by simpa [plug] using h2⟩
      have hnot : ¬ v > x := not_lt.mpr (le_of_lt hgt)
      rw [if_pos hgt]
      unfold getNode
      rw [if_pos hxv, if_neg hnot]
      exact h1
    · obtain ⟨up2, h1, h2⟩ := ihr hr (⟨Side.right, x, l⟩ :: up)
      refine ⟨up2, ?_, by simpa [plug] using h2⟩
      have hlt : v > x := lt_of_le_of_ne (not_lt.mp hgt) hxv
      rw [if_neg hgt]
      unfold getNode
      rw [if_pos hxv, if_pos hlt]
      exact h1

theorem remove_insert (t : BST α) (v : α) (hs : t.m_size = t.m_root.count)
    (h : v ∉ t.inorder) : (t.insert v).remove v = t := by
  rw [inorder_eq_toList] at h
  obtain ⟨up2, h1, h2⟩ := getNode_insertRec v t.m_root h []
  rw [insert_eq t v hs]
  unfold remove
  simp only [h1, removeNode, transplant, transplantTree_eq, h2, plug]
  rfl

theorem getNode_after_gt (value : α) (t : Tree α) :
    ∀ (up : List (Frame α)) (n : Loc α), getNode value up t = some n → t.Ordered →
      ∀ y ∈ after n.up, y ∈ after up ∨ value < y := by
  induction t with
  | nil => intro up n h; simp [getNode] at h
  | node l x r ihl ihr =>
    intro up n h ho
    unfold getNode at h
    by_cases hx : x ≠ value
    · rw [if_pos hx] at h
      by_cases hv : value > x
      · rw [if_pos hv] at h
        intro y hy
        rcases ihr _ n h ho.2.1 y hy with hb | hb
        · exact Or.inl (by simpa [after] using hb)
        · exact Or.inr hb
      · rw [if_neg hv] at h
        have hlt : value < x := lt_of_le_of_ne (not_lt.mp hv) (Ne.symm hx)
        intro y hy
        rcases ihl _ n h ho.1 y hy with hb | hb
        · simp only [after, List.mem_append, List.mem_cons] at hb
          rcases hb with (hb | hb) | hb
          · exact Or.inr (hb ▸ hlt)
          · exact Or.inr (lt_of_lt_of_le hlt (ho.2.2.2 y hb))
          · exact Or.inl hb
        · exact Or.inr hb
    · rw [if_neg hx] at h
      cases h
      exact fun y hy => Or.inl hy

end MoreLemmas

/-! ## Height and shape -/

theorem getHeightHelper_eq_zero {t : Tree α} : getHeightHelper t = 0 ↔ t = Tree.nil := by
  cases t with
  | nil => simp [getHeightHelper]
  | node l x r => simp [getHeightHelper]

theorem isNil_iff {t : Tree α} : t.isNil = true ↔ t = Tree.nil := by
  cases t <;> simp [Tree.isNil]

theorem rootToLeaf_height (t : Tree α) (h : t ≠ Tree.nil) :
    (∃ p ∈ t.rootToLeaf, p.length + 1 = getHeightHelper t) ∧
      ∀ q ∈ t.rootToLeaf, q.length + 1 ≤ getHeightHelper t := by
  induction t with
  | nil => exact absurd rfl h
  | node l x r ihl ihr =>
    by_cases hb : l = Tree.nil ∧ r = Tree.nil
    · obtain ⟨rfl, rfl⟩ := hb
      simp [Tree.rootToLeaf, Tree.isNil, getHeightHelper]
    · have hif : (l.isNil && r.isNil) = false := by
        rw [Bool.and_eq_false_iff]
        by_cases hl : l = Tree.nil
        · right
          have hr : r ≠ Tree.nil := fun e => hb ⟨hl, e⟩
          cases r with
          | nil => exact absurd rfl hr
          | node _ _ _ => rfl
        · left
          cases l with
          | nil => exact absurd rfl hl
          | node _ _ _ => rfl
      have hpaths : (Tree.node l x r).rootToLeaf
          = l.rootToLeaf.map (List.cons Side.left) ++ r.rootToLeaf.map (List.cons Side.right) := by
        simp [Tree.rootToLeaf, hif]
      rw [hpaths]
      have hmax : getHeightHelper (Tree.node l x r)
          = 1 + Nat.max (getHeightHelper l) (getHeightHelper r) := rfl
      rw [hmax]
      have hmaxl : getHeightHelper l ≤ Nat.max (getHeightHelper l) (getHeightHelper r) :=
        Nat.le_max_left _ _
      have hmaxr : getHeightHelper r ≤ Nat.max (getHeightHelper l) (getHeightHelper r) :=
        Nat.le_max_right _ _
      constructor
      · rcases Nat.le_total (getHeightHelper r) (getHeightHelper l) with hle | hle
        · have hm : Nat.max (getHeightHelper l) (getHeightHelper r) = getHeightHelper l :=
            Nat.max_eq_left hle
          have hl : l ≠ Tree.nil := by
            intro e
            have h0 : getHeightHelper l = 0 := getHeightHelper_eq_zero.mpr e
            have h1 : getHeightHelper r = 0 := by omega
            exact hb ⟨e, getHeightHelper_eq_zero.mp h1⟩
          obtain ⟨p, hp, hlen⟩ := (ihl hl).1
          refine ⟨Side.left :: p, ?_, ?_⟩
          · exact List.mem_append_left _ (List.mem_map.mpr ⟨p, hp, rfl⟩)
          · rw [hm, List.length_cons]; omega
        · have hm : Nat.max (getHeightHelper l) (getHeightHelper r) = getHeightHelper r :=
            Nat.max_eq_right hle
          have hr : r ≠ Tree.nil := by
            intro e
            have h0 : getHeightHelper r = 0 := getHeightHelper_eq_zero.mpr e
            have h1 : getHeightHelper l = 0 := by omega
            exact hb ⟨getHeightHelper_eq_zero.mp h1, e⟩
          obtain ⟨p, hp, hlen⟩ := (ihr hr).1
          refine ⟨Side.right :: p, ?_, ?_⟩
          · exact List.mem_append_right _ (List.mem_map.mpr ⟨p, hp, rfl⟩)
          · rw [hm, List.length_cons]; omega
      · intro q hq
        rcases List.mem_append.mp hq with hq | hq
        · obtain ⟨p, hp, rfl⟩ := List.mem_map.mp hq
          have hl : l ≠ Tree.nil := by
            rintro rfl
            simp [Tree.rootToLeaf] at hp
          have := (ihl hl).2 p hp
          rw [List.length_cons]; omega
        · obtain ⟨p, hp, rfl⟩ := List.mem_map.mp hq
          have hr : r ≠ Tree.nil := by
            rintro rfl
            simp [Tree.rootToLeaf] at hp
          have := (ihr hr).2 p hp
          rw [List.length_cons]; omega

theorem getMinLoop_leftmost (up : List (Frame α)) (l : Tree α) (x : α) (r : Tree α) :
    (Tree.node l x r).leftmost = some (getMinLoop up l x r).value ∧
      plug (getMinLoop up l x r).up (getMinLoop up l x r).right
        = plug up (Tree.node l x r).dropLeftmost := by
  induction l generalizing up x r with
  | nil => simp [getMinLoop, Tree.leftmost, Tree.dropLeftmost]
  | node ll lx lr ihl _ =>
    obtain ⟨h1, h2⟩ := ihl (⟨Side.left, x, r⟩ :: up) lx lr
    refine ⟨?_, ?_⟩
    · rw [Tree.leftmost, h1]; rfl
    · rw [Tree.dropLeftmost]
      simpa [getMinLoop, plug] using h2

theorem toList_spine (l : List α) : (spine l).toList = l := by
  induction l with
  | nil => rfl
  | cons x xs ih => simp [spine, Tree.toList, ih]

theorem count_spine (l : List α) : (spine l).count = l.length := by
  rw [← length_toList, toList_spine]

theorem getHeightHelper_spine (l : List α) : getHeightHelper (spine l) = l.length := by
  induction l with
  | nil => rfl
  | cons x xs ih =>
    simp only [spine, getHeightHelper, ih, List.length_cons]
    have : Nat.max 0 xs.length = xs.length := Nat.max_eq_right (Nat.zero_le _)
    omega

theorem noLeftChild_spine (l : List α) : (spine l).NoLeftChild := by
  induction l with
  | nil => trivial
  | cons x xs ih => exact ⟨rfl, ih⟩

theorem doPreorder_spine {σ : Type} (f : σ → α → σ) (l : List α) (s : σ) :
    doPreorder f (spine l) s = l.foldl f s := by
  induction l generalizing s with
  | nil => rfl
  | cons x xs ih => simp [spine, doPreorder, ih]

theorem doLevelorderLoop_spine {σ : Type} (f : σ → α → σ) (l : List α) (k : Nat) (s : σ) :
    doLevelorderLoop f (l.length + k) (pushNode [] (spine l)) s = l.foldl f s := by
  induction l generalizing s with
  | nil => cases k <;> simp [spine, pushNode, doLevelorderLoop]
  | cons x xs ih =>
    have hk : (x :: xs).length + k = (xs.length + k) + 1 := by simp; omega
    rw [hk]
    simp only [spine, pushNode, List.nil_append, doLevelorderLoop, List.foldl_cons]
    exact ih (f s x)

/-! ## Level order -/

theorem pushNode_eq (queue : List (Tree α × α × Tree α)) (t : Tree α) :
    pushNode queue t = queue ++ pushNode [] t := by
  cases t <;> simp [pushNode]

theorem doLevelorderLoop_append {σ : Type} (f : σ → α → σ)
    (Q P : List (Tree α × α × Tree α)) (fuel : Nat) (s : σ) :
    doLevelorderLoop f (fuel + Q.length) (Q ++ P) s
      = doLevelorderLoop f fuel (P ++ childrenOf Q) (Q.foldl (fun acc n => f acc n.2.1) s) := by
  induction Q generalizing P s with
  | nil => simp [childrenOf]
  | cons n Q ih =>
    obtain ⟨l, x, r⟩ := n
    have hf : fuel + ((l, x, r) :: Q).length = (fuel + Q.length) + 1 := by simp; omega
    have hq : pushNode (pushNode (Q ++ P) l) r = Q ++ (P ++ pushNode (pushNode [] l) r) := by
      rw [pushNode_eq, pushNode_eq (Q ++ P) l, pushNode_eq (pushNode [] l) r]
      simp [pushNode, List.append_assoc]
    rw [hf, List.cons_append, doLevelorderLoop, hq, ih]
    simp [childrenOf, List.append_assoc]

theorem queueCount_append (A B : List (Tree α × α × Tree α)) :
    queueCount (A ++ B) = queueCount A + queueCount B := by
  induction A with
  | nil => simp [queueCount]
  | cons n A ih =>
    obtain ⟨l, x, r⟩ := n
    rw [List.cons_append, queueCount, queueCount, ih]
    omega

theorem queueCount_pushNode (t : Tree α) : queueCount (pushNode [] t) = t.count := by
  cases t <;> simp [pushNode, queueCount, Tree.count]

theorem queueCount_childrenOf (Q : List (Tree α × α × Tree α)) :
    queueCount (childrenOf Q) + Q.length = queueCount Q := by
  induction Q with
  | nil => rfl
  | cons n Q ih =>
    obtain ⟨l, x, r⟩ := n
    rw [childrenOf, pushNode_eq, queueCount_append, queueCount_append, queueCount_pushNode,
      queueCount_pushNode, queueCount, List.length_cons]
    omega

theorem length_le_queueCount (Q : List (Tree α × α × Tree α)) : Q.length ≤ queueCount Q := by
  have := queueCount_childrenOf Q
  omega

theorem queueLevel_pushNode (t : Tree α) (d : Nat) :
    queueLevel (pushNode [] t) d = t.level d := by
  cases t <;> simp [pushNode, queueLevel, Tree.level]

theorem queueLevel_append (A B : List (Tree α × α × Tree α)) (d : Nat) :
    queueLevel (A ++ B) d = queueLevel A d ++ queueLevel B d := by
  simp [queueLevel]

theorem queueLevel_cons (n : Tree α × α × Tree α) (Q : List (Tree α × α × Tree α)) (d : Nat) :
    queueLevel (n :: Q) d = (Tree.node n.1 n.2.1 n.2.2).level d ++ queueLevel Q d := by
  simp [queueLevel]

theorem queueLevel_zero (Q : List (Tree α × α × Tree α)) :
    queueLevel Q 0 = Q.map (fun n => n.2.1) := by
  induction Q with
  | nil => rfl
  | cons n Q ih => rw [queueLevel_cons, ih, Tree.level]; rfl

theorem queueLevel_succ (Q : List (Tree α × α × Tree α)) (d : Nat) :
    queueLevel Q (d + 1) = queueLevel (childrenOf Q) d := by
  induction Q with
  | nil => rfl
  | cons n Q ih =>
    obtain ⟨l, x, r⟩ := n
    rw [queueLevel_cons, ih, childrenOf, queueLevel_append, pushNode_eq, queueLevel_append,
      queueLevel_pushNode, queueLevel_pushNode, Tree.level]

theorem doLevelorderLoop_levels {σ : Type} (f : σ → α → σ) (n : Nat) :
    ∀ (Q : List (Tree α × α × Tree α)) (fuel : Nat) (s : σ),
      queueCount Q ≤ n → queueCount Q ≤ fuel →
      doLevelorderLoop f fuel Q s = ((List.range n).flatMap (queueLevel Q)).foldl f s := by
  induction n with
  | zero =>
    intro Q fuel s hn _
    have hl := length_le_queueCount Q
    have hQ : Q = [] := List.length_eq_zero.mp (by omega)
    subst hQ
    cases fuel <;> simp [doLevelorderLoop]
  | succ n ih =>
    intro Q fuel s hn hf
    have hl := length_le_queueCount Q
    have hc := queueCount_childrenOf Q
    obtain ⟨fuel2, rfl⟩ : ∃ fuel2, fuel = fuel2 + Q.length := ⟨fuel - Q.length, by omega⟩
    have happ := doLevelorderLoop_append f Q [] fuel2 s
    rw [List.append_nil, List.nil_append] at happ
    cases Q with
    | nil =>
      have hnil : (List.range (n + 1)).flatMap (queueLevel ([] : List (Tree α × α × Tree α)))
          = [] := List.flatMap_eq_nil_iff.mpr (fun d _ => rfl)
      rw [hnil]
      cases fuel2 <;> simp [doLevelorderLoop]
    | cons q Q =>
      rw [happ, ih _ _ _ (by simp only [List.length_cons] at hc; omega) (by omega)]
      rw [List.range_succ_eq_map, List.flatMap_cons, List.flatMap_map, List.foldl_append,
        queueLevel_zero, List.foldl_map]
      simp only [Nat.succ_eq_add_one, queueLevel_succ]

theorem level_eq_nil (t : Tree α) : ∀ d, getHeightHelper t ≤ d → t.level d = [] := by
  induction t with
  | nil => intro d _; rfl
  | node l x r ihl ihr =>
    intro d hd
    have hmax : getHeightHelper (Tree.node l x r)
        = 1 + Nat.max (getHeightHelper l) (getHeightHelper r) := rfl
    have hmaxl : getHeightHelper l ≤ Nat.max (getHeightHelper l) (getHeightHelper r) :=
      Nat.le_max_left _ _
    have hmaxr : getHeightHelper r ≤ Nat.max (getHeightHelper l) (getHeightHelper r) :=
      Nat.le_max_right _ _
    cases d with
    | zero => omega
    | succ d =>
      rw [Tree.level, ihl d (by omega), ihr d (by omega)]
      rfl

theorem flatMap_range_of_nil (g : Nat → List α) (h k : Nat) (hnil : ∀ d, h ≤ d → g d = []) :
    (List.range (h + k)).flatMap g = (List.range h).flatMap g := by
  induction k with
  | zero => rfl
  | succ k ih =>
    rw [← Nat.add_assoc, List.range_succ, List.flatMap_append, ih, List.flatMap_singleton,
      hnil (h + k) (by omega), List.append_nil]

theorem getHeightHelper_le_count (t : Tree α) : getHeightHelper t ≤ t.count := by
  induction t with
  | nil => exact Nat.le_refl _
  | node l x r ihl ihr =>
    have hmax : getHeightHelper (Tree.node l x r)
        = 1 + Nat.max (getHeightHelper l) (getHeightHelper r) := rfl
    have : Nat.max (getHeightHelper l) (getHeightHelper r) ≤ l.count + r.count :=
      Nat.max_le.mpr ⟨by omega, by omega⟩
    rw [hmax, Tree.count]
    omega

theorem doLevelorderLoop_byDepth {σ : Type} (f : σ → α → σ) (t : Tree α) (k : Nat) (s : σ) :
    doLevelorderLoop f (t.count + k) (pushNode [] t) s = t.byDepth.foldl f s := by
  rw [doLevelorderLoop_levels f t.count (pushNode [] t) (t.count + k) s
    (by rw [queueCount_pushNode]) (by rw [queueCount_pushNode]; omega)]
  have hfun : queueLevel (pushNode [] t) = t.level := funext (queueLevel_pushNode t)
  obtain ⟨j, hj⟩ : ∃ j, t.count = getHeightHelper t + j :=
    ⟨t.count - getHeightHelper t, by have := getHeightHelper_le_count t; omega⟩
  rw [hfun, Tree.byDepth, hj, flatMap_range_of_nil _ _ _ (level_eq_nil t)]

theorem perm_byDepth (t : Tree α) : t.byDepth.Perm t.toList := by
  induction t with
  | nil => exact List.Perm.refl _
  | node l x r ihl ihr =>
    have hmaxl : getHeightHelper l ≤ Nat.max (getHeightHelper l) (getHeightHelper r) :=
      Nat.le_max_left _ _
    have hmaxr : getHeightHelper r ≤ Nat.max (getHeightHelper l) (getHeightHelper r) :=
      Nat.le_max_right _ _
    obtain ⟨jl, hjl⟩ : ∃ j, Nat.max (getHeightHelper l) (getHeightHelper r)
        = getHeightHelper l + j := ⟨_, (Nat.add_sub_cancel' hmaxl).symm⟩
    obtain ⟨jr, hjr⟩ : ∃ j, Nat.max (getHeightHelper l) (getHeightHelper r)
        = getHeightHelper r + j := ⟨_, (Nat.add_sub_cancel' hmaxr).symm⟩
    have hl : (List.range (Nat.max (getHeightHelper l) (getHeightHelper r))).flatMap l.level
        = l.byDepth := by
      rw [hjl, flatMap_range_of_nil _ _ _ (level_eq_nil l)]; rfl
    have hr : (List.range (Nat.max (getHeightHelper l) (getHeightHelper r))).flatMap r.level
        = r.byDepth := by
      rw [hjr, flatMap_range_of_nil _ _ _ (level_eq_nil r)]; rfl
    have hb : (Tree.node l x r).byDepth
        = x :: (List.range (Nat.max (getHeightHelper l) (getHeightHelper r))).flatMap
            (fun d => l.level d ++ r.level d) := by
      simp only [Tree.byDepth, getHeightHelper]
      rw [Nat.add_comm, List.range_succ_eq_map, List.flatMap_cons, List.flatMap_map]
      rfl
    rw [hb, Tree.toList]
    refine List.Perm.trans (List.Perm.cons x ?_) (List.perm_middle).symm
    refine (List.flatMap_append_perm _ _ _).symm.trans ?_
    rw [hl, hr]
    exact ihl.append ihr

section SpineLemmas

variable [LinearOrder α]

theorem insertRec_spine (l : List α) (x : α) (h : ∀ y ∈ l, y ≤ x) :
    (spine l).insertRec x = spine (l ++ [x]) := by
  induction l with
  | nil => rfl
  | cons y ys ih =>
    have hy : ¬ y > x := not_lt.mpr (h y (by simp))
    have e := ih (fun z hz => h z (List.mem_cons_of_mem _ hz))
    simp only [List.cons_append, spine, Tree.insertRec, hy, if_false, e, List.append_eq]

theorem foldl_insert_spine (l a : List α) (h : (a ++ l).Sorted (· ≤ ·)) :
    l.foldl insert ⟨spine a, a.length⟩ = ⟨spine (a ++ l), (a ++ l).length⟩ := by
  induction l generalizing a with
  | nil => simp
  | cons x xs ih =>
    have hle : ∀ y ∈ a, y ≤ x := by
      intro y hy
      exact (List.pairwise_append.mp h).2.2 y hy x (by simp)
    have hstep : insert ⟨spine a, a.length⟩ x = ⟨spine (a ++ [x]), (a ++ [x]).length⟩ := by
      rw [insert_eq _ x (by simp [count_spine]), insertRec_spine a x hle]
      simp
    rw [List.foldl_cons, hstep, ih (a ++ [x]) (by simpa using h)]
    simp

theorem copy_eq_spine (t : BST α) (ho : t.m_root.Ordered) :
    copy t = ⟨spine t.m_root.toList, t.m_root.count⟩ := by
  rw [copy_eq_ofList]
  have := foldl_insert_spine t.m_root.toList [] (by simpa using sorted_toList _ ho)
  simpa [ofList, empty_tree, spine, length_toList] using this

end SpineLemmas

/-! ## The documented behaviour, continued -/

/-- C14: a move, by move construction or by move assignment between two distinct
trees, leaves the source empty (`size()` zero, `empty()` true, no root) and
gives the destination the root and the size the source had. -/
theorem move_leaves_source_empty (src dst : BST α) :
    ((moveConstruct src).2.size = 0 ∧ (moveConstruct src).2.empty = true ∧
        (moveConstruct src).2.m_root = Tree.nil ∧
        (moveConstruct src).1.m_root = src.m_root ∧ (moveConstruct src).1.size = src.size) ∧
      ((moveAssign dst src).2.size = 0 ∧ (moveAssign dst src).2.empty = true ∧
        (moveAssign dst src).2.m_root = Tree.nil ∧
        (moveAssign dst src).1.m_root = src.m_root ∧ (moveAssign dst src).1.size = src.size) :=
  ⟨⟨rfl, rfl, rfl, rfl, rfl⟩, ⟨rfl, rfl, rfl, rfl, rfl⟩⟩

/-- C17: for every tree the level-order traversal ends within one round of its
queue loop per node (more rounds change nothing) and hands the visitor the
values depth after depth, left to right within a depth; every node is visited
once.  After inserting 5, 3, 8, 1, 4, 7, 9 the sequence is 5, 3, 8, 1, 4, 7, 9. -/
theorem levelorder_breadth_first (t : BST α) :
    t.levelorder = t.m_root.byDepth ∧
      (∀ (σ : Type) (f : σ → α → σ) (s : σ),
        t.levelorderTraverse f s = t.m_root.byDepth.foldl f s) ∧
      (∀ (σ : Type) (f : σ → α → σ) (s : σ) (k : Nat),
        doLevelorderLoop f (t.m_root.count + k) (pushNode [] t.m_root) s
          = t.levelorderTraverse f s) ∧
      t.levelorder.Perm t.inorder ∧
      (ofList [5, 3, 8, 1, 4, 7, 9] : BST Nat).levelorder = [5, 3, 8, 1, 4, 7, 9] := by
  have h0 : ∀ (σ : Type) (f : σ → α → σ) (s : σ),
      t.levelorderTraverse f s = t.m_root.byDepth.foldl f s := fun σ f s =>
    doLevelorderLoop_byDepth f t.m_root 0 s
  have h1 : t.levelorder = t.m_root.byDepth := by
    rw [levelorder, h0, foldl_record, List.nil_append]
  refine ⟨h1, h0, ?_, ?_, by decide⟩
  · intro σ f s k
    rw [h0, doLevelorderLoop_byDepth]
  · rw [h1, inorder_eq_toList]
    exact perm_byDepth _

section MoreClaims

variable [LinearOrder α]

/-- C11: in a tree reached by `insert` and `remove` calls each of `min()`,
`max()`, `pedecessorOf v` and `successorOf v` fails with the `std::logic_error`
exactly when the tree holds no node, and returns a value exactly when it holds
one, whatever `v` is. -/
theorem logic_error_iff_no_node (ops : List (Op α)) (v : α) :
    ((run ops).min = Except.error Error.logic_error ↔ (run ops).m_root.count = 0) ∧
      ((run ops).max = Except.error Error.logic_error ↔ (run ops).m_root.count = 0) ∧
      ((run ops).pedecessorOf v = Except.error Error.logic_error
        ↔ (run ops).m_root.count = 0) ∧
      ((run ops).successorOf v = Except.error Error.logic_error
        ↔ (run ops).m_root.count = 0) ∧
      ((run ops).m_root.count ≠ 0 ↔
        (∃ x, (run ops).min = Except.ok x) ∧ (∃ x, (run ops).max = Except.ok x) ∧
        (∃ x, (run ops).pedecessorOf v = Except.ok x) ∧
        (∃ x, (run ops).successorOf v = Except.ok x)) := by
  have hv := valid_run ops
  by_cases he : (run ops).empty = true
  · have hc : (run ops).m_root.count = 0 := (empty_iff_count _ hv.1).mp he
    have h1 : (run ops).min = Except.error Error.logic_error := by simp [min, he]
    have h2 : (run ops).max = Except.error Error.logic_error := by simp [max, he]
    have h3 : (run ops).pedecessorOf v = Except.error Error.logic_error := by
      simp [pedecessorOf, he]
    have h4 : (run ops).successorOf v = Except.error Error.logic_error := by
      simp [successorOf, he]
    refine ⟨⟨fun _ => hc, fun _ => h1⟩, ⟨fun _ => hc, fun _ => h2⟩, ⟨fun _ => hc, fun _ => h3⟩,
      ⟨fun _ => hc, fun _ => h4⟩, ⟨fun hne => absurd hc hne, ?_⟩⟩
    rintro ⟨⟨x, hx⟩, _⟩
    rw [h1] at hx
    cases hx
  · have hc : (run ops).m_root.count ≠ 0 := fun h0 => he ((empty_iff_count _ hv.1).mpr h0)
    have hef : (run ops).empty = false := by simpa using he
    obtain ⟨lo, hi, h1, h2, _⟩ := min_max_valid _ hv hef
    obtain ⟨⟨p, h3⟩, ⟨q, h4⟩⟩ := neighbours_ok (run ops) v hef
    refine ⟨⟨fun h => ?_, fun h => absurd h hc⟩, ⟨fun h => ?_, fun h => absurd h hc⟩,
      ⟨fun h => ?_, fun h => absurd h hc⟩, ⟨fun h => ?_, fun h => absurd h hc⟩,
      ⟨fun _ => ⟨⟨lo, h1⟩, ⟨hi, h2⟩, ⟨p, h3⟩, ⟨q, h4⟩⟩, fun _ => hc⟩⟩
    · rw [h1] at h; cases h
    · rw [h2] at h; cases h
    · rw [h3] at h; cases h
    · rw [h4] at h; cases h

/-- C12: `height()` is 0 for the empty tree and for a tree of one node; for a
non-empty tree it is the number of edges of a longest root-to-leaf path; the
tree built by inserting 4, 2, 6, 1, 3, 5, 7 has height 2. -/
theorem height_spec (t : BST α) (hs : t.m_size = t.m_root.count) (hne : t.empty = false) :
    ((∃ p ∈ t.m_root.rootToLeaf, p.length = t.height) ∧
        ∀ q ∈ t.m_root.rootToLeaf, q.length ≤ t.height) ∧
      (empty_tree : BST α).height = 0 ∧
      (∀ v : α, ((empty_tree : BST α).insert v).height = 0) ∧
      (ofList [4, 2, 6, 1, 3, 5, 7] : BST Nat).height = 2 := by
  have hc : t.m_root.count ≠ 0 := by
    intro h0
    have := (empty_iff_count t hs).mpr h0
    rw [hne] at this
    cases this
  have hr : t.m_root ≠ Tree.nil := fun e => hc (count_eq_zero.mpr e)
  obtain ⟨⟨p, hp, hlen⟩, hall⟩ := rootToLeaf_height t.m_root hr
  have hh : t.height = getHeightHelper t.m_root - 1 := by simp [height, hne]
  refine ⟨⟨⟨p, hp, by omega⟩, fun q hq => ?_⟩, rfl, fun v => rfl, by decide⟩
  have := hall q hq
  omega

/-- C13: the copy of a tree reached by `insert` and `remove` calls has the
`size()` of the source and the same in-order output. -/
theorem copy_size_inorder (ops : List (Op α)) :
    (copy (run ops)).size = (run ops).size ∧ (copy (run ops)).inorder = (run ops).inorder := by
  have hv := valid_run ops
  obtain ⟨hc, hi⟩ := copy_spec (run ops) hv.2
  refine ⟨?_, hi⟩
  have e1 : (copy (run ops)).m_size = (copy (run ops)).inorder.length := by
    rw [inorder_eq_toList, length_toList]; exact hc.1
  have e2 : (run ops).m_size = (run ops).inorder.length := by
    rw [inorder_eq_toList, length_toList]; exact hv.1
  simp only [size, e1, e2, hi]

/-- C15: when the node found for `v` has two children, `remove v` puts the value
of the leftmost node of its right subtree in its place, keeps its left subtree,
gives it the right subtree with that leftmost node replaced by the node's own
right subtree, and leaves the tree above unchanged.  After inserting
5, 3, 8, 1, 4, 7, 9 and removing 5 the in-order sequence is 1, 3, 4, 7, 8, 9 and
the level-order sequence is 7, 3, 8, 1, 4, 9. -/
theorem remove_two_children (t : BST α) (v : α) (n : Loc α)
    (hn : getNode v [] t.m_root = some n) (hl : n.left ≠ Tree.nil)
    (hr : n.right ≠ Tree.nil) :
    (t.m_root = plug n.up (Tree.node n.left v n.right) ∧
        ∃ m, n.right.leftmost = some m ∧
          (t.remove v).m_root = plug n.up (Tree.node n.left m n.right.dropLeftmost)) ∧
      ((ofList [5, 3, 8, 1, 4, 7, 9] : BST Nat).remove 5).inorder = [1, 3, 4, 7, 8, 9] ∧
      ((ofList [5, 3, 8, 1, 4, 7, 9] : BST Nat).remove 5).levelorder = [7, 3, 8, 1, 4, 9] := by
  refine ⟨⟨?_, ?_⟩, by decide, by decide⟩
  · obtain ⟨h1, h2, _⟩ := getNode_spec v t.m_root [] n hn
    rw [← h1]
    exact h2.symm
  · obtain ⟨up, l, x, r⟩ := n
    cases l with
    | nil => exact absurd rfl hl
    | node ll lx lr =>
      cases r with
      | nil => exact absurd rfl hr
      | node rl rx rr =>
        obtain ⟨h1, h2⟩ := getMinLoop_leftmost [] rl rx rr
        refine ⟨(getMinLoop [] rl rx rr).value, h1, ?_⟩
        unfold remove
        rw [hn]
        simp only [removeNode, transplant]
        rw [succRight_eq, transplantTree_eq, h2]
        rfl

/-- C16: the ordering holds in the empty tree and is kept by every `insert` and
every `remove`; hence in every tree reached from the empty tree the values to
the left of a node are strictly smaller than the node's value and the values to
its right are greater or equal. -/
theorem ordering_invariant :
    (empty_tree : BST α).m_root.Ordered ∧
      (∀ (t : BST α) (v : α), t.m_root.Ordered → (t.insert v).m_root.Ordered) ∧
      (∀ (t : BST α) (v : α), t.m_root.Ordered → (t.remove v).m_root.Ordered) ∧
      ∀ ops : List (Op α), (run ops).m_root.Ordered :=
  ⟨trivial, ordered_insert, ordered_remove, fun ops => (valid_run ops).2⟩

/-- C18: the copy of an ordered tree of `n ≥ 1` nodes is a right spine: no node
of it has a left child, its `height()` is `n - 1`, and its pre-order and
level-order outputs are its in-order output. -/
theorem copy_right_spine (t : BST α) (ho : t.m_root.Ordered) (hn : 1 ≤ t.m_root.count) :
    (copy t).m_root.NoLeftChild ∧ (copy t).height = t.m_root.count - 1 ∧
      (copy t).preorder = (copy t).inorder ∧ (copy t).levelorder = (copy t).inorder := by
  rw [copy_eq_spine t ho]
  have hin : (⟨spine t.m_root.toList, t.m_root.count⟩ : BST α).inorder = t.m_root.toList := by
    rw [inorder_eq_toList, toList_spine]
  refine ⟨noLeftChild_spine _, ?_, ?_, ?_⟩
  · have he : (⟨spine t.m_root.toList, t.m_root.count⟩ : BST α).empty = false := by
      simp only [empty, beq_eq_false_iff_ne]
      omega
    simp [height, he, getHeightHelper_spine, length_toList]
  · rw [hin, preorder, preorderTraverse, doPreorder_spine, foldl_record, List.nil_append]
  · rw [hin, levelorder, levelorderTraverse, doLevelorder, count_spine]
    have := doLevelorderLoop_spine record t.m_root.toList 0 ([] : List α)
    rw [Nat.add_zero] at this
    rw [this, foldl_record, List.nil_append]

/-- C19: in a tree reached by `insert` and `remove` calls, `insert v` followed by
`remove v` of a value `v` that was not stored gives the tree back: same nodes in
the same places and same `size()`. -/
theorem remove_after_insert (ops : List (Op α)) (v : α) (h : v ∉ (run ops).inorder) :
    ((run ops).insert v).remove v = run ops :=
  remove_insert (run ops) v (run_size ops) h

/-- C20: in a reachable tree the node `getNode` returns for a stored `x` is the
first `x` in in-order position; every other `x` lies in its right subtree.
When `x` is stored more than once `successorOf x` therefore returns `x`, also
with a greater value stored: after inserting 5, 7, 5 `successorOf 5` is 5. -/
theorem getNode_first_occurrence (ops : List (Op α)) (x : α) (h : x ∈ (run ops).inorder) :
    (∃ n, getNode x [] (run ops).m_root = some n ∧ n.value = x ∧
        (run ops).inorder
          = (before n.up ++ n.left.toList) ++ x :: (n.right.toList ++ after n.up) ∧
        (∀ y ∈ before n.up ++ n.left.toList, y < x) ∧ (∀ y ∈ after n.up, x < y) ∧
        (run ops).inorder.count x = n.right.toList.count x + 1) ∧
      (1 < (run ops).inorder.count x → (run ops).successorOf x = Except.ok x) ∧
      ((ofList [5, 7, 5] : BST Nat).successorOf 5 = Except.ok 5 ∧
        (7 : Nat) ∈ (ofList [5, 7, 5] : BST Nat).inorder) := by
  have hv := valid_run ops
  obtain ⟨n, hn⟩ := Option.isSome_iff_exists.mp ((stored_iff_getNode _ hv x).mp h)
  have hb := getNode_toList x _ n hn
  have hlt := getNode_before_lt _ hv.2 x n hn
  have hgt : ∀ y ∈ after n.up, x < y := by
    intro y hy
    rcases getNode_after_gt x _ [] n hn hv.2 y hy with hy2 | hy2
    · simp [after] at hy2
    · exact hy2
  have hcount : (run ops).inorder.count x = n.right.toList.count x + 1 := by
    rw [inorder_eq_toList, hb]
    simp only [List.count_append, List.count_cons_self]
    have h1 : (before n.up).count x = 0 :=
      List.count_eq_zero.mpr (fun hm => lt_irrefl x (hlt x (List.mem_append_left _ hm)))
    have h2 : n.left.toList.count x = 0 :=
      List.count_eq_zero.mpr (fun hm => lt_irrefl x (hlt x (List.mem_append_right _ hm)))
    have h3 : (after n.up).count x = 0 :=
      List.count_eq_zero.mpr (fun hm => lt_irrefl x (hgt x hm))
    omega
  refine ⟨⟨n, hn, (getNode_spec x _ [] n hn).1, ?_, hlt, hgt, hcount⟩, ?_, by decide, by decide⟩
  · rw [inorder_eq_toList]; exact hb
  · intro hmany
    rw [successorOf_eq _ hv x n hn]
    have hmem : x ∈ n.right.toList := List.count_pos_iff.mp (by omega)
    have hs := sorted_toList _ hv.2
    rw [hb] at hs
    have hs2 := (List.pairwise_append.mp hs).2.1
    cases hR : n.right.toList with
    | nil => rw [hR] at hmem; exact absurd hmem (List.not_mem_nil _)
    | cons s rest =>
      rw [hR] at hmem hs2
      have h1 : x ≤ s := List.rel_of_sorted_cons hs2 s (by simp)
      have h2 : s ≤ x := by
        rcases List.mem_cons.mp hmem with e | hm
        · exact le_of_eq e.symm
        · have hs3 : (s :: (rest ++ after n.up)).Sorted (· ≤ ·) :=
            (List.sorted_cons.mp hs2).2
          exact List.rel_of_sorted_cons hs3 x (List.mem_append_left _ hm)
      simp [le_antisymm h2 h1]

/-! ## Further instances on concrete trees -/

/-- Instance of C12: the tree built by inserting 4, 2, 6, 1, 3, 5, 7. -/
theorem height_spec_witness :
    (ofList [4, 2, 6, 1, 3, 5, 7] : BST Nat).m_size
        = (ofList [4, 2, 6, 1, 3, 5, 7] : BST Nat).m_root.count ∧
      (ofList [4, 2, 6, 1, 3, 5, 7] : BST Nat).empty = false ∧
      (((∃ p ∈ (ofList [4, 2, 6, 1, 3, 5, 7] : BST Nat).m_root.rootToLeaf,
            p.length = (ofList [4, 2, 6, 1, 3, 5, 7] : BST Nat).height) ∧
          ∀ q ∈ (ofList [4, 2, 6, 1, 3, 5, 7] : BST Nat).m_root.rootToLeaf,
            q.length ≤ (ofList [4, 2, 6, 1, 3, 5, 7] : BST Nat).height) ∧
        (empty_tree : BST Nat).height = 0 ∧
        (∀ v : Nat, ((empty_tree : BST Nat).insert v).height = 0) ∧
        (ofList [4, 2, 6, 1, 3, 5, 7] : BST Nat).height = 2) :=
  ⟨by decide, by decide, height_spec (ofList [4, 2, 6, 1, 3, 5, 7]) (by decide) (by decide)⟩

/-- Instance of C15: removing the root 5 of the tree built by inserting
5, 3, 8, 1, 4, 7, 9, the root being the node found for 5. -/
theorem remove_two_children_witness :
    getNode 5 [] (ofList [5, 3, 8, 1, 4, 7, 9] : BST Nat).m_root
        = some ⟨[], (ofList [3, 1, 4]).m_root, 5, (ofList [8, 7, 9]).m_root⟩ ∧
      (ofList [3, 1, 4] : BST Nat).m_root ≠ Tree.nil ∧
      (ofList [8, 7, 9] : BST Nat).m_root ≠ Tree.nil ∧
      (((ofList [5, 3, 8, 1, 4, 7, 9] : BST Nat).m_root
            = plug [] (Tree.node (ofList [3, 1, 4]).m_root 5 (ofList [8, 7, 9]).m_root) ∧
          ∃ m, (ofList [8, 7, 9] : BST Nat).m_root.leftmost = some m ∧
            ((ofList [5, 3, 8, 1, 4, 7, 9] : BST Nat).remove 5).m_root
              = plug [] (Tree.node (ofList [3, 1, 4]).m_root m
                  (ofList [8, 7, 9] : BST Nat).m_root.dropLeftmost)) ∧
        ((ofList [5, 3, 8, 1, 4, 7, 9] : BST Nat).remove 5).inorder = [1, 3, 4, 7, 8, 9] ∧
        ((ofList [5, 3, 8, 1, 4, 7, 9] : BST Nat).remove 5).levelorder = [7, 3, 8, 1, 4, 9]) :=
  ⟨by decide, by decide, by decide,
    remove_two_children (ofList [5, 3, 8, 1, 4, 7, 9]) 5
      ⟨[], (ofList [3, 1, 4]).m_root, 5, (ofList [8, 7, 9]).m_root⟩
      (by decide) (by decide) (by decide)⟩

/-- Instance of C18: the copy of the tree built by inserting 5, 3, 8, 1. -/
theorem copy_right_spine_witness :
    (ofList [5, 3, 8, 1] : BST Nat).m_root.Ordered ∧
      1 ≤ (ofList [5, 3, 8, 1] : BST Nat).m_root.count ∧
      (copy (ofList [5, 3, 8, 1] : BST Nat)).m_root.NoLeftChild ∧
      (copy (ofList [5, 3, 8, 1] : BST Nat)).height
        = (ofList [5, 3, 8, 1] : BST Nat).m_root.count - 1 ∧
      (copy (ofList [5, 3, 8, 1] : BST Nat)).preorder
        = (copy (ofList [5, 3, 8, 1] : BST Nat)).inorder ∧
      (copy (ofList [5, 3, 8, 1] : BST Nat)).levelorder
        = (copy (ofList [5, 3, 8, 1] : BST Nat)).inorder :=
  ⟨(valid_ofList [5, 3, 8, 1]).2, by decide,
    copy_right_spine (ofList [5, 3, 8, 1]) (valid_ofList [5, 3, 8, 1]).2 (by decide)⟩

/-- Instance of C19: inserting and removing the absent value 4 after inserting
5, 3, 8 and removing 3. -/
theorem remove_after_insert_witness :
    (4 : Nat) ∉ (run [Op.insert 5, Op.insert 3, Op.insert 8, Op.remove 3]).inorder ∧
      ((run [Op.insert 5, Op.insert 3, Op.insert 8, Op.remove 3]).insert 4).remove 4
        = run [Op.insert 5, Op.insert 3, Op.insert 8, Op.remove 3] :=
  ⟨by decide,
    remove_after_insert [Op.insert 5, Op.insert 3, Op.insert 8, Op.remove 3] 4 (by decide)⟩

/-- Instance of C20: the value 5 after inserting 5, 7, 5. -/
theorem getNode_first_occurrence_witness :
    (5 : Nat) ∈ (run [Op.insert 5, Op.insert 7, Op.insert 5]).inorder ∧
      ((∃ n, getNode 5 [] (run [Op.insert 5, Op.insert 7, Op.insert 5]).m_root = some n ∧
          n.value = 5 ∧
          (run [Op.insert 5, Op.insert 7, Op.insert 5]).inorder
            = (before n.up ++ n.left.toList) ++ 5 :: (n.right.toList ++ after n.up) ∧
          (∀ y ∈ before n.up ++ n.left.toList, y < 5) ∧ (∀ y ∈ after n.up, 5 < y) ∧
          (run [Op.insert 5, Op.insert 7, Op.insert 5]).inorder.count 5
            = n.right.toList.count 5 + 1) ∧
        (1 < (run [Op.insert 5, Op.insert 7, Op.insert 5]).inorder.count 5 →
          (run [Op.insert 5, Op.insert 7, Op.insert 5]).successorOf 5 = Except.ok 5) ∧
        ((ofList [5, 7, 5] : BST Nat).successorOf 5 = Except.ok 5 ∧
          (7 : Nat) ∈ (ofList [5, 7, 5] : BST Nat).inorder)) :=
  ⟨by decide,
    getNode_first_occurrence [Op.insert 5, Op.insert 7, Op.insert 5] 5 (by decide)⟩

end MoreClaims

end BST
